import Mathlib

/-!
Shallow embedding of `esp32_flashlogs` (esp32_flashlogs.cpp / esp32_flashlogs.h),
a circular log of fixed-size entries stored in NOR flash.

Modelling conventions:
* C `int` fields of `struct flashlog_state_t` (`numslots`, `numinuse`, `newest`,
  `oldest`, `current`) are `Int`; the code never relies on 32-bit `int` overflow
  for them and all wrap handling is by explicit compares, transcribed verbatim.
* `highest_seqno` is `uint32_t`; its increment is taken mod `2^32`.
* The flash partition is modelled at slot granularity: a header (`Option`, with
  `none` standing for a missing/garbled magic id) plus a map from slot index to
  the slot's stored sequence number.  `UNUSED` (= `0xFFFFFFFF`) is the erased
  sentinel.  Payload bytes are not modelled: no verified property depends on
  them.  An `esp_partition_erase_range` call of 4096 bytes is modelled as
  resetting every slot whose byte extent lies wholly inside the erased byte
  range (the offsets the code issues are always slot-aligned with slot size
  dividing 4096, so no slot is ever partially covered).
* Fallibility of the ESP-IDF primitives is modelled by boolean parameters
  (`readOk`, `eraseOk`, `writeOk`, `mallocOk`); a failed primitive leaves the
  flash unchanged.  `partition_err` (a diagnostic copy of the ESP-IDF error
  code) is not modelled.
* Each operation also returns the list of flash I/O operations it issued, in
  order, so that "no I/O was performed" and "exactly one erase unit was erased"
  are directly statable.
-/

namespace Flashlog

/-- `UINT32_MAX`, the sentinel sequence number of an unused (erased) slot. -/
def UNUSED : Nat := 4294967295

/-- `2^32`, the modulus of `uint32_t` arithmetic. -/
def U32MOD : Nat := 4294967296

/-- `FLASHLOG_SLOT0`: byte offset in the partition where slot 0 starts. -/
def SLOT0 : Int := 4096

/-- `enum flashlog_error` from esp32_flashlogs.h. -/
inductive Err where
  | OK
  | NO_PARTITION
  | BADSIZE
  | READERR
  | NOINIT
  | WRITEERR
  | ERASEERR
  | NOMEM
  | BADSLOT
deriving DecidableEq, Repr

/-- One flash I/O call issued to the ESP-IDF partition API
(byte offset and byte length). -/
inductive IOOp where
  | readBytes (offset : Int) (len : Int)
  | writeBytes (offset : Int) (len : Int)
  | eraseRange (offset : Int) (len : Int)
deriving DecidableEq, Repr

/-- `struct flashlog_hdr_t`: the flash-resident header at offset 0.
`datasize` is kept as `Nat` (it is a byte count). -/
structure FlashHdr where
  datasize : Nat
  numslots : Int
deriving DecidableEq, Repr

/-- The flash partition contents, at slot granularity.
`hdr = none` models a partition whose first bytes do not carry the
`"flashlog"` magic id (e.g. an erased partition).
`slots i` is the `seqno` field of slot `i` (`UNUSED` when erased). -/
structure Flash where
  hdr : Option FlashHdr
  slots : Nat → Nat

/-- `struct flashlog_state_t`, the RAM-resident cursor state.
`opened` models `entrybuf != NULL` (the buffer allocated by a successful
open and freed by close). -/
structure LogState where
  opened : Bool
  datasize : Nat
  numslots : Int
  highest_seqno : Nat
  numinuse : Int
  newest : Int
  oldest : Int
  current : Int
deriving DecidableEq, Repr

/-- `sizeof(struct flashlog_entry_hdr_t)` = 4 (one `uint32_t seqno`). -/
def ENTRYHDR_SIZE : Nat := 4

/-- `entrysize = datasize + sizeof(struct flashlog_entry_hdr_t)`:
the full slot size in bytes. -/
def entrysize (datasize : Nat) : Nat := datasize + ENTRYHDR_SIZE

/-- The slot-size validity check of `flashlog_open`:
`entrysize > 4096 || (entrysize & (entrysize - 1)) != 0`. -/
def sizeBad (datasize : Nat) : Bool :=
  4096 < entrysize datasize || (entrysize datasize &&& (entrysize datasize - 1)) != 0

/-- Byte offset of slot `slot`:
`FLASHLOG_SLOT0 + slot * (datasize + sizeof(struct flashlog_entry_hdr_t))`. -/
def slotOffset (datasize : Nat) (slot : Int) : Int :=
  SLOT0 + slot * (entrysize datasize : Int)

/-- Entries per erase unit: `4096 / length` with `length` the slot size. -/
def perUnit (datasize : Nat) : Nat := 4096 / entrysize datasize

/-- Effect on the slot array of `esp_partition_erase_range(partition, offset, 4096)`:
every slot whose byte extent lies wholly within `[offset, offset + 4096)` is
reset to the erased sentinel. -/
def eraseSlots (datasize : Nat) (slots : Nat → Nat) (offset : Int) : Nat → Nat :=
  fun i =>
    if offset ≤ slotOffset datasize (i : Int) ∧
       slotOffset datasize ((i : Int) + 1) ≤ offset + 4096 then UNUSED
    else slots i

/-- Effect on the slot array of writing one full slot (header + payload) at
the byte offset of slot `slot` with sequence number `seq`. -/
def writeSlot (slots : Nat → Nat) (slot : Int) (seq : Nat) : Nat → Nat :=
  fun i => if (i : Int) = slot then seq else slots i

/-- Result of an operation that may change both the RAM state and the flash,
together with the I/O trace it issued. -/
structure OpResult where
  err : Err
  st : LogState
  fl : Flash
  trace : List IOOp

/-- `flashlog_add` (esp32_flashlogs.cpp lines 106-125), transcribed:

```
if (!state->entrybuf) return FLASHLOG_ERR_NOINIT;
if (state->numinuse > 0) {
   if (++state->newest >= state->numslots) state->newest = 0; }
int offset = FLASHLOG_SLOT0 + state->newest * (state->datasize + sizeof hdr);
int length = state->datasize + sizeof hdr;
if (state->numinuse == state->numslots) {
   if (erase_range(offset, 4096) != ESP_OK) return FLASHLOG_ERR_ERASEERR;
   state->numinuse -= 4096 / length;
   state->oldest += 4096 / length;
   if (state->oldest >= state->numslots) state->oldest -= state->numslots; }
state->entrybuf->seqno = ++state->highest_seqno;
++state->numinuse;
if (write(offset, entrybuf, length) != ESP_OK) return FLASHLOG_ERR_WRITEERR;
return FLASHLOG_ERR_OK;
```

`eraseOk` / `writeOk` give the outcomes of the two fallible primitives.
The `newest`-advance step is split out as `advNewest` just below. -/
def advNewest (st : LogState) : LogState :=
  if st.numinuse > 0 then
    let n := st.newest + 1
    { st with newest := if n ≥ st.numslots then 0 else n }
  else st

/-- The rest of `flashlog_add`; see the transcription comment on
`advNewest` just above, whose body is the `newest`-advance step
(`if (++state->newest >= state->numslots) state->newest = 0;`, executed
only when the log is non-empty). -/
def flashlog_add (st : LogState) (fl : Flash) (eraseOk writeOk : Bool) : OpResult :=
  if !st.opened then ⟨Err.NOINIT, st, fl, []⟩
  else
    let st1 := advNewest st
    let offset := slotOffset st1.datasize st1.newest
    let length : Int := (entrysize st1.datasize : Int)
    if st1.numinuse = st1.numslots then
      if !eraseOk then ⟨Err.ERASEERR, st1, fl, [IOOp.eraseRange offset 4096]⟩
      else
        let fl2 : Flash := { fl with slots := eraseSlots st1.datasize fl.slots offset }
        let st2 := { st1 with
                     numinuse := st1.numinuse - 4096 / length,
                     oldest := st1.oldest + 4096 / length }
        let st3 := { st2 with
                     oldest := if st2.oldest ≥ st2.numslots
                               then st2.oldest - st2.numslots else st2.oldest }
        let seq := (st3.highest_seqno + 1) % U32MOD
        let st4 := { st3 with highest_seqno := seq, numinuse := st3.numinuse + 1 }
        if !writeOk then
          ⟨Err.WRITEERR, st4, fl2,
           [IOOp.eraseRange offset 4096, IOOp.writeBytes offset length]⟩
        else
          ⟨Err.OK, st4, { fl2 with slots := writeSlot fl2.slots st4.newest seq },
           [IOOp.eraseRange offset 4096, IOOp.writeBytes offset length]⟩
    else
      let seq := (st1.highest_seqno + 1) % U32MOD
      let st4 := { st1 with highest_seqno := seq, numinuse := st1.numinuse + 1 }
      if !writeOk then
        ⟨Err.WRITEERR, st4, fl, [IOOp.writeBytes offset length]⟩
      else
        ⟨Err.OK, st4, { fl with slots := writeSlot fl.slots st4.newest seq },
         [IOOp.writeBytes offset length]⟩

/-- `flashlog_read` (esp32_flashlogs.cpp lines 128-141).  The guard is the
C condition with `&&`/`||` precedence made explicit by parentheses:

```
state->numinuse == 0
|| (state->newest >= state->oldest && (current < state->oldest || current > state->newest))
|| (state->newest < state->oldest && (current >= state->numslots || state->current < 0))
|| (current > state->newest && current < state->oldest)
```

Reading copies bytes into the caller's buffer and alters neither the RAM
state nor the flash, so only the error and trace are returned. -/
def flashlog_read (st : LogState) (readOk : Bool) : Err × List IOOp :=
  if !st.opened then (Err.NOINIT, [])
  else
    let current := st.current
    if st.numinuse = 0
       ∨ (st.newest ≥ st.oldest ∧ (current < st.oldest ∨ current > st.newest))
       ∨ (st.newest < st.oldest ∧ (current ≥ st.numslots ∨ st.current < 0))
       ∨ (current > st.newest ∧ current < st.oldest)
    then (Err.BADSLOT, [])
    else
      let length : Int := (entrysize st.datasize : Int)
      let offset := slotOffset st.datasize st.current
      if !readOk then (Err.READERR, [IOOp.readBytes offset length])
      else (Err.OK, [IOOp.readBytes offset length])

/-- `flashlog_goto_newest` (esp32_flashlogs.cpp lines 145-148). -/
def flashlog_goto_newest (st : LogState) : Err × LogState :=
  if st.numinuse = 0 then (Err.BADSLOT, st)
  else (Err.OK, { st with current := st.newest })

/-- `flashlog_goto_oldest` (esp32_flashlogs.cpp lines 150-153). -/
def flashlog_goto_oldest (st : LogState) : Err × LogState :=
  if st.numinuse = 0 then (Err.BADSLOT, st)
  else (Err.OK, { st with current := st.oldest })

/-- `flashlog_goto_next` (esp32_flashlogs.cpp lines 155-160). -/
def flashlog_goto_next (st : LogState) : Err × LogState :=
  if st.numinuse = 0 ∨ st.current = st.newest then (Err.BADSLOT, st)
  else
    let c := st.current + 1
    (Err.OK, { st with current := if c ≥ st.numslots then 0 else c })

/-- `flashlog_goto_prev` (esp32_flashlogs.cpp lines 162-167). -/
def flashlog_goto_prev (st : LogState) : Err × LogState :=
  if st.numinuse = 0 ∨ st.current = st.oldest then (Err.BADSLOT, st)
  else
    let c := st.current - 1
    (Err.OK, { st with current := if c < 0 then st.numslots - 1 else c })

/-- `flashlog_close` (esp32_flashlogs.cpp lines 97-103): frees the entry
buffer; the other RAM fields are left as they are. -/
def flashlog_close (st : LogState) : Err × LogState :=
  (Err.OK, { st with opened := false })

/-- Accumulator of the recovery scan loop of `flashlog_open`
(esp32_flashlogs.cpp lines 72-88).  `numinuse` starts from the value already
in the caller's state struct: the C code never resets it in this branch. -/
structure ScanAcc where
  numinuse : Int
  highest_seqno : Nat
  newest : Int
  oldest : Int
  oldest_seqno : Nat
deriving DecidableEq, Repr

/-- One iteration of the recovery scan loop body, for slot `slot`:

```
if (entryhdr.seqno != UINT32_MAX) {
   ++state->numinuse;
   if (entryhdr.seqno > state->highest_seqno) {
      state->highest_seqno = entryhdr.seqno; state->newest = slot; }
   if (entryhdr.seqno < oldest_seqno) {
      oldest_seqno = entryhdr.seqno; state->oldest = slot; } }
``` -/
def scanSlot (slots : Nat → Nat) (slot : Nat) (acc : ScanAcc) : ScanAcc :=
  let s := slots slot
  if s ≠ UNUSED then
    let acc1 := { acc with numinuse := acc.numinuse + 1 }
    let acc2 := if s > acc1.highest_seqno
                then { acc1 with highest_seqno := s, newest := (slot : Int) }
                else acc1
    if s < acc2.oldest_seqno
    then { acc2 with oldest_seqno := s, oldest := (slot : Int) }
    else acc2
  else acc

/-- The recovery scan over slots `0, 1, ..., n-1` in increasing order. -/
def scan (slots : Nat → Nat) : Nat → ScanAcc → ScanAcc
  | 0, acc => acc
  | n + 1, acc => scanSlot slots n (scan slots n acc)

/-- `flashlog_open` (esp32_flashlogs.cpp lines 35-94).  Parameters:
* `st0`: the caller's state struct as passed in (its stale field values
  matter: the recovery branch increments `numinuse` without resetting it);
* `fl`: current flash contents; `capacity`: `partition->size` in bytes;
* `datasize`: the requested per-entry user-data size;
* `found`: whether `esp_partition_find_first` succeeds;
* `readOk`, `eraseOk`, `writeOk`, `mallocOk`: outcomes of the fallible
  primitives (`readOk` covers the header read and all slot-header reads).

The fresh-initialization branch computes
`hdr.numslots = (partition->size - FLASHLOG_SLOT0) / entrysize`; the operands
are `uint32_t`, so the subtraction is taken mod `2^32` and the division is
unsigned. -/
def flashlog_open (st0 : LogState) (fl : Flash) (capacity : Nat) (datasize : Nat)
    (found readOk eraseOk writeOk mallocOk : Bool) : OpResult :=
  if !found then ⟨Err.NO_PARTITION, st0, fl, []⟩
  else
    if sizeBad datasize then ⟨Err.BADSIZE, st0, fl, []⟩
    else
      let st1 := { st0 with datasize := datasize }
      if !readOk then ⟨Err.READERR, st1, fl, [IOOp.readBytes 0 16]⟩
      else
        let hdrRead : List IOOp := [IOOp.readBytes 0 16]
        let hmatch : Option Int :=
          match fl.hdr with
          | none => none
          | some h => if h.datasize = datasize then some h.numslots else none
        match hmatch with
        | none =>
          -- initialize the log from scratch: erase the whole partition,
          -- write a fresh header
          if !eraseOk then
            ⟨Err.ERASEERR, st1, fl, hdrRead ++ [IOOp.eraseRange 0 (capacity : Int)]⟩
          else
            let flErased : Flash := { hdr := none, slots := fun _ => UNUSED }
            let newNumslots : Int :=
              (((capacity + U32MOD - 4096) % U32MOD) / entrysize datasize : Nat)
            if !writeOk then
              ⟨Err.WRITEERR, st1, flErased,
               hdrRead ++ [IOOp.eraseRange 0 (capacity : Int), IOOp.writeBytes 0 16]⟩
            else
              let fl2 : Flash := { hdr := some ⟨datasize, newNumslots⟩,
                                   slots := fun _ => UNUSED }
              let st2 := { st1 with
                           numslots := newNumslots,
                           highest_seqno := 0,
                           oldest := 0, newest := 0, current := 0,
                           numinuse := 0 }
              let st3 := { st2 with current := st2.newest }
              if !mallocOk then
                ⟨Err.NOMEM, { st3 with opened := false }, fl2,
                 hdrRead ++ [IOOp.eraseRange 0 (capacity : Int), IOOp.writeBytes 0 16]⟩
              else
                ⟨Err.OK, { st3 with opened := true }, fl2,
                 hdrRead ++ [IOOp.eraseRange 0 (capacity : Int), IOOp.writeBytes 0 16]⟩
        | some hdrNumslots =>
          -- the log exists: scan every slot header to rebuild the cursor state
          let st2 := { st1 with
                       numslots := hdrNumslots,
                       highest_seqno := 0,
                       newest := 0, oldest := 0 }
          let acc0 : ScanAcc := ⟨st2.numinuse, 0, 0, 0, UNUSED⟩
          let acc := scan fl.slots hdrNumslots.toNat acc0
          let st3 := { st2 with
                       numinuse := acc.numinuse,
                       highest_seqno := acc.highest_seqno,
                       newest := acc.newest,
                       oldest := acc.oldest }
          let st4 := { st3 with current := st3.newest }
          let slotReads : List IOOp :=
            (List.range hdrNumslots.toNat).map
              (fun i => IOOp.readBytes (slotOffset datasize (i : Int)) 4)
          if !mallocOk then ⟨Err.NOMEM, { st4 with opened := false }, fl, hdrRead ++ slotReads⟩
          else ⟨Err.OK, { st4 with opened := true }, fl, hdrRead ++ slotReads⟩

/-- Slot `i` lies on the oldest→newest arc: it is `(oldest + k) mod numslots`
for some arc position `k < numinuse`. -/
def arcMember (st : LogState) (i : Int) : Prop :=
  ∃ k : Nat, k < st.numinuse.toNat ∧ (st.oldest + (k : Int)) % st.numslots = i

instance (st : LogState) (i : Int) : Decidable (arcMember st i) := by
  unfold arcMember
  infer_instance

/-- Invariant I1 of the spec: `0 ≤ inUseCount ≤ slotCount`; when the log is
non-empty the cursor indices are in range and `newestSlotIndex` is the last
slot of the arc of length `inUseCount` starting at `oldestSlotIndex`; and the
slots holding a valid (non-sentinel) sequence number are exactly that arc. -/
def InvariantI1 (st : LogState) (fl : Flash) : Prop :=
  0 ≤ st.numinuse ∧ st.numinuse ≤ st.numslots ∧
  (0 < st.numinuse →
    0 ≤ st.oldest ∧ st.oldest < st.numslots ∧
    st.newest = (st.oldest + st.numinuse - 1) % st.numslots) ∧
  (∀ i : Nat, i < st.numslots.toNat → (fl.slots i ≠ UNUSED ↔ arcMember st (i : Int)))

instance (st : LogState) (fl : Flash) : Decidable (InvariantI1 st fl) := by
  unfold InvariantI1
  infer_instance

/-- The well-formedness invariant of an open log, established by a fresh
`flashlog_open` and preserved by every successful `flashlog_add`.  On top of
invariant I1 it records: the slot size is valid; the slot count is a positive
multiple of the entries-per-erase-unit count (true of any partition whose
byte size is a multiple of 4096); `oldestSlotIndex` stays aligned to an erase
unit; when the log is empty, `newest` (the next append target) equals
`oldest`; and the arc holds the consecutive sequence numbers ending at
`highest_seqno` (which makes them strictly increasing along the arc,
invariant I3). -/
structure WF (st : LogState) (fl : Flash) : Prop where
  opened : st.opened = true
  size_ok : sizeBad st.datasize = false
  slots_pos : 0 < st.numslots
  unit_dvd : (perUnit st.datasize : Int) ∣ st.numslots
  inuse_lb : 0 ≤ st.numinuse
  inuse_ub : st.numinuse ≤ st.numslots
  oldest_lb : 0 ≤ st.oldest
  oldest_ub : st.oldest < st.numslots
  oldest_align : (perUnit st.datasize : Int) ∣ st.oldest
  newest_eq : st.newest = if st.numinuse = 0 then st.oldest
              else (st.oldest + st.numinuse - 1) % st.numslots
  seq_ge : st.numinuse ≤ (st.highest_seqno : Int)
  seq_lt : st.highest_seqno < UNUSED
  valid_iff : ∀ i : Nat, i < st.numslots.toNat →
    (fl.slots i ≠ UNUSED ↔ arcMember st (i : Int))
  seq_at : ∀ k : Nat, k < st.numinuse.toNat →
    fl.slots ((st.oldest + (k : Int)) % st.numslots).toNat
      = st.highest_seqno + 1 + k - st.numinuse.toNat

/-! ### Arithmetic helper lemmas -/

theorem land_mul_two (a b : Nat) : (2 * a) &&& (2 * b) = 2 * (a &&& b) := by
  have h := Nat.land_bit false a false b
  simpa [Nat.bit] using h

theorem land_mul_two_add_one (a b : Nat) : (2 * a) &&& (2 * b + 1) = 2 * (a &&& b) := by
  have h := Nat.land_bit false a true b
  simpa [Nat.bit] using h

theorem land_odd_even (a b : Nat) : (2 * a + 1) &&& (2 * b) = 2 * (a &&& b) := by
  have h := Nat.land_bit true a false b
  simpa [Nat.bit] using h

/-- The classic bit trick of the slot-size check: for positive `n`,
`n & (n-1) == 0` holds exactly when `n` is a power of two. -/
theorem land_pred_eq_zero_iff : ∀ n : Nat, 0 < n → ((n &&& (n - 1)) = 0 ↔ ∃ k, n = 2 ^ k) := by
  intro n
  induction n using Nat.strong_induction_on with
  | _ n ih =>
    intro hn
    rcases Nat.even_or_odd n with he | ho
    · obtain ⟨m, hm⟩ := he
      have hm2 : n = 2 * m := by omega
      have hmpos : 0 < m := by omega
      rw [hm2]
      have hpred : 2 * m - 1 = 2 * (m - 1) + 1 := by omega
      rw [hpred, land_mul_two_add_one]
      constructor
      · intro h
        have h0 : (m &&& (m - 1)) = 0 := by omega
        obtain ⟨k, hk⟩ := (ih m (by omega) hmpos).1 h0
        refine ⟨k + 1, ?_⟩
        rw [hk, pow_succ]
        ring
      · rintro ⟨k, hk⟩
        rcases k with _ | k
        · omega
        · have hmk : m = 2 ^ k := by
            rw [pow_succ] at hk
            omega
          have h := (ih m (by omega) hmpos).2 ⟨k, hmk⟩
          omega
    · obtain ⟨m, hm⟩ := ho
      rw [hm]
      have hpred : 2 * m + 1 - 1 = 2 * m := by omega
      rw [hpred, land_odd_even]
      constructor
      · intro h
        have hm0 : m &&& m = m := by
          apply Nat.eq_of_testBit_eq
          intro i
          simp [Nat.testBit_land]
        have hz : m = 0 := by rw [hm0] at h; omega
        exact ⟨0, by omega⟩
      · rintro ⟨k, hk⟩
        rcases k with _ | k
        · have hz : m = 0 := by omega
          simp [hz]
        · exfalso
          rw [pow_succ] at hk
          omega

/-- The size check accepts exactly the sizes whose slot size
`datasize + 4` is a power of two at most `4096 = 2^12`. -/
theorem sizeBad_false_iff (d : Nat) :
    sizeBad d = false ↔ ∃ k, k ≤ 12 ∧ entrysize d = 2 ^ k := by
  have hpos : 0 < entrysize d := by simp [entrysize, ENTRYHDR_SIZE]
  have hland := land_pred_eq_zero_iff (entrysize d) hpos
  constructor
  · intro h
    simp only [sizeBad, Bool.or_eq_false_iff, decide_eq_false_iff_not, not_lt,
      bne_eq_false_iff_eq] at h
    obtain ⟨k, hk⟩ := hland.1 h.2
    refine ⟨k, ?_, hk⟩
    by_contra hgt
    have h13 : (13 : Nat) ≤ k := by omega
    have : (2 : Nat) ^ 13 ≤ 2 ^ k := Nat.pow_le_pow_right (by norm_num) h13
    have : entrysize d ≤ 4096 := h.1
    omega
  · rintro ⟨k, hk12, hk⟩
    have h1 : entrysize d ≤ 4096 := by
      rw [hk]
      calc (2 : Nat) ^ k ≤ 2 ^ 12 := Nat.pow_le_pow_right (by norm_num) hk12
        _ = 4096 := by norm_num
    have h2 : (entrysize d &&& (entrysize d - 1)) = 0 := hland.2 ⟨k, hk⟩
    simp only [sizeBad, Bool.or_eq_false_iff, decide_eq_false_iff_not, not_lt,
      bne_eq_false_iff_eq]
    exact ⟨h1, h2⟩

/-- For a valid slot size, slot size times entries-per-erase-unit is
exactly 4096: the erase unit divides evenly into slots. -/
theorem len_mul_perUnit (d : Nat) (h : sizeBad d = false) :
    entrysize d * perUnit d = 4096 := by
  obtain ⟨k, hk12, hk⟩ := (sizeBad_false_iff d).1 h
  have : (4096 : Nat) = 2 ^ k * 2 ^ (12 - k) := by
    rw [← pow_add]
    have hx : k + (12 - k) = 12 := by omega
    rw [hx]
    norm_num
  rw [perUnit, hk, this]
  rw [Nat.mul_div_cancel_left _ (Nat.pos_pow_of_pos k (by norm_num))]

theorem perUnit_pos (d : Nat) (h : sizeBad d = false) : 0 < perUnit d := by
  have hm := len_mul_perUnit d h
  by_contra h0
  have : perUnit d = 0 := by omega
  rw [this, Nat.mul_zero] at hm
  omega

theorem entrysize_pos (d : Nat) : 0 < entrysize d := by
  simp [entrysize, ENTRYHDR_SIZE]

/-- `4096 / length` as the C code computes it (both operands positive,
so C and Lean integer division agree) equals `perUnit`. -/
theorem ediv_4096 (d : Nat) (h : sizeBad d = false) :
    (4096 : Int) / (entrysize d : Int) = (perUnit d : Int) := by
  have hm := len_mul_perUnit d h
  have : (4096 : Int) = (entrysize d : Int) * (perUnit d : Int) := by
    exact_mod_cast hm.symm
  rw [this, Int.mul_ediv_cancel_left]
  exact_mod_cast (entrysize_pos d).ne'

theorem emod_shift (a n : Int) : (a - n) % n = a % n := by
  have h := Int.add_mul_emod_self_left (a - n) n 1
  simpa using h

/-- `a % n` for `0 ≤ a < 2n`: identity below `n`, one subtraction above. -/
theorem emod_two_period {a n : Int} (hn : 0 < n) (h0 : 0 ≤ a) (h2 : a < 2 * n) :
    a % n = if a < n then a else a - n := by
  split
  · exact Int.emod_eq_of_lt h0 (by assumption)
  · rw [← emod_shift]
    exact Int.emod_eq_of_lt (by omega) (by omega)

/-- Arc positions below `n` map injectively onto slots. -/
theorem arc_pos_inj {o n : Int} (hn : 0 < n) {k1 k2 : Int} (h1 : 0 ≤ k1) (h1n : k1 < n)
    (h2 : 0 ≤ k2) (h2n : k2 < n) (he : (o + k1) % n = (o + k2) % n) : k1 = k2 := by
  have h := Int.emod_eq_emod_iff_emod_sub_eq_zero.1 he
  have hr : (o + k1) - (o + k2) = k1 - k2 := by ring
  rw [hr] at h
  have hd := Int.dvd_of_emod_eq_zero h
  have hz := Int.eq_zero_of_abs_lt_dvd hd (by rw [abs_lt]; omega)
  omega

theorem advNewest_opened (st : LogState) : (advNewest st).opened = st.opened := by
  unfold advNewest
  split <;> rfl

theorem advNewest_datasize (st : LogState) : (advNewest st).datasize = st.datasize := by
  unfold advNewest
  split <;> rfl

theorem advNewest_numslots (st : LogState) : (advNewest st).numslots = st.numslots := by
  unfold advNewest
  split <;> rfl

theorem advNewest_numinuse (st : LogState) : (advNewest st).numinuse = st.numinuse := by
  unfold advNewest
  split <;> rfl

theorem advNewest_oldest (st : LogState) : (advNewest st).oldest = st.oldest := by
  unfold advNewest
  split <;> rfl

theorem advNewest_highest (st : LogState) :
    (advNewest st).highest_seqno = st.highest_seqno := by
  unfold advNewest
  split <;> rfl

theorem advNewest_current (st : LogState) : (advNewest st).current = st.current := by
  unfold advNewest
  split <;> rfl

/-- Interval description of arc membership: slot `i` is on the arc exactly
when it lies in `[oldest, min (oldest+numinuse) numslots)` or in the wrapped
part `[0, oldest+numinuse-numslots)`. -/
theorem arcMember_iff (st : LogState) (hn : 0 < st.numslots)
    (ho0 : 0 ≤ st.oldest) (hon : st.oldest < st.numslots)
    (hu0 : 0 ≤ st.numinuse) (hun : st.numinuse ≤ st.numslots) (i : Int) :
    arcMember st i ↔
      ((st.oldest ≤ i ∧ i < st.oldest + st.numinuse ∧ i < st.numslots) ∨
       (0 ≤ i ∧ i < st.oldest + st.numinuse - st.numslots)) := by
  constructor
  · rintro ⟨k, hk, rfl⟩
    have hmod := emod_two_period hn (a := st.oldest + (k : Int)) (by omega) (by omega)
    rw [hmod]
    split_ifs <;> omega
  · rintro (⟨h1, h2, h3⟩ | ⟨h1, h2⟩)
    · refine ⟨(i - st.oldest).toNat, by omega, ?_⟩
      have hc : (((i - st.oldest).toNat : Nat) : Int) = i - st.oldest :=
        Int.toNat_of_nonneg (by omega)
      rw [hc]
      have hr : st.oldest + (i - st.oldest) = i := by ring
      rw [hr]
      exact Int.emod_eq_of_lt (by omega) (by omega)
    · refine ⟨(i + st.numslots - st.oldest).toNat, by omega, ?_⟩
      have hc : (((i + st.numslots - st.oldest).toNat : Nat) : Int)
          = i + st.numslots - st.oldest := Int.toNat_of_nonneg (by omega)
      rw [hc]
      have hr : st.oldest + (i + st.numslots - st.oldest) = i + st.numslots := by ring
      rw [hr]
      have hs : (i + st.numslots) % st.numslots = i % st.numslots := by
        have h := Int.add_mul_emod_self_left i st.numslots 1
        simpa using h
      rw [hs]
      exact Int.emod_eq_of_lt (by omega) (by omega)

/-- Under `WF`, the `newest` advance at the top of `flashlog_add` lands on
the slot one past the arc end: `(oldest + numinuse) % numslots`. -/
theorem advNewest_target (st : LogState) (fl : Flash) (hWF : WF st fl) :
    (advNewest st).newest = (st.oldest + st.numinuse) % st.numslots := by
  have hn := hWF.slots_pos
  have ho0 := hWF.oldest_lb
  have hon := hWF.oldest_ub
  have hu0 := hWF.inuse_lb
  have hun := hWF.inuse_ub
  have hne := hWF.newest_eq
  unfold advNewest
  rcases eq_or_lt_of_le hu0 with hz | hpos
  · rw [if_neg (by omega)]
    rw [hne, if_pos hz.symm]
    rw [show st.oldest + st.numinuse = st.oldest by omega]
    exact (Int.emod_eq_of_lt ho0 hon).symm
  · rw [if_pos hpos]
    show (if st.newest + 1 ≥ st.numslots then 0 else st.newest + 1)
        = (st.oldest + st.numinuse) % st.numslots
    have hne0 : ¬ st.numinuse = 0 := by omega
    rw [hne, if_neg hne0]
    rw [@emod_two_period (st.oldest + st.numinuse - 1) st.numslots hn (by omega) (by omega)]
    rw [@emod_two_period (st.oldest + st.numinuse) st.numslots hn (by omega) (by omega)]
    split_ifs <;> omega

/-- The slot-level effect of the 4096-byte erase that `flashlog_add` issues
at the byte offset of slot `o`: exactly the `perUnit` slots `o ≤ i < o + perUnit`
are reset (valid slot sizes divide 4096 evenly, so no slot is split). -/
theorem eraseSlots_char (d : Nat) (hsz : sizeBad d = false) (s : Nat → Nat)
    (o : Int) (i : Nat) :
    eraseSlots d s (slotOffset d o) i =
      if o ≤ (i : Int) ∧ (i : Int) < o + (perUnit d : Int) then UNUSED else s i := by
  have hlen : (0 : Int) < (entrysize d : Int) := by exact_mod_cast entrysize_pos d
  have h4096 : (4096 : Int) = (entrysize d : Int) * (perUnit d : Int) := by
    exact_mod_cast (len_mul_perUnit d hsz).symm
  have hiff : (slotOffset d o ≤ slotOffset d (i : Int) ∧
      slotOffset d ((i : Int) + 1) ≤ slotOffset d o + 4096) ↔
      (o ≤ (i : Int) ∧ (i : Int) < o + (perUnit d : Int)) := by
    unfold slotOffset
    constructor
    · rintro ⟨hA, hB⟩
      constructor
      · have h1 : o * (entrysize d : Int) ≤ (i : Int) * (entrysize d : Int) := by omega
        exact Int.le_of_mul_le_mul_right h1 hlen
      · have h2 : ((i : Int) + 1) * (entrysize d : Int)
            ≤ o * (entrysize d : Int) + 4096 := by omega
        rw [h4096] at h2
        have h3 : ((i : Int) + 1) * (entrysize d : Int)
            ≤ (o + (perUnit d : Int)) * (entrysize d : Int) := by ring_nf; ring_nf at h2; omega
        have h4 := Int.le_of_mul_le_mul_right h3 hlen
        omega
    · rintro ⟨hA, hB⟩
      have h1 : o * (entrysize d : Int) ≤ (i : Int) * (entrysize d : Int) :=
        Int.mul_le_mul_of_nonneg_right hA (by omega)
      have h2 : ((i : Int) + 1) * (entrysize d : Int)
          ≤ (o + (perUnit d : Int)) * (entrysize d : Int) :=
        Int.mul_le_mul_of_nonneg_right (by omega) (by omega)
      constructor
      · omega
      · rw [h4096]
        ring_nf
        ring_nf at h2
        omega
  unfold eraseSlots
  by_cases hc : o ≤ (i : Int) ∧ (i : Int) < o + (perUnit d : Int)
  · rw [if_pos (hiff.2 hc), if_pos hc]
  · rw [if_neg (fun hx => hc (hiff.1 hx)), if_neg hc]

/-- `WF` is transferred through a non-evicting append: the state advanced
to `numinuse + 1` entries with the new sequence number written at the slot
one past the old arc end. -/
theorem WF_step_write (st st' : LogState) (fl fl' : Flash) (hWF : WF st fl)
    (hnf : st.numinuse < st.numslots) (hseq : st.highest_seqno + 1 < UNUSED)
    (h1 : st'.opened = true) (h2 : st'.datasize = st.datasize)
    (h3 : st'.numslots = st.numslots) (h4 : st'.numinuse = st.numinuse + 1)
    (h5 : st'.oldest = st.oldest) (h6 : st'.highest_seqno = st.highest_seqno + 1)
    (h7 : st'.newest = (st.oldest + st.numinuse) % st.numslots)
    (hf : ∀ i : Nat, fl'.slots i =
      if (i : Int) = (st.oldest + st.numinuse) % st.numslots
      then st.highest_seqno + 1 else fl.slots i) :
    WF st' fl' := by
  have hn := hWF.slots_pos
  have ho0 := hWF.oldest_lb
  have hon := hWF.oldest_ub
  have hu0 := hWF.inuse_lb
  have hun := hWF.inuse_ub
  have hsg := hWF.seq_ge
  have hsgn : st.numinuse.toNat ≤ st.highest_seqno := by omega
  have hvi := hWF.valid_iff
  have hsa := hWF.seq_at
  have ht0 : 0 ≤ (st.oldest + st.numinuse) % st.numslots :=
    Int.emod_nonneg _ (by omega)
  have htn : (st.oldest + st.numinuse) % st.numslots < st.numslots :=
    Int.emod_lt_of_pos _ hn
  refine ⟨h1, ?_, ?_, ?_, ?_, ?_, ?_, ?_, ?_, ?_, ?_, ?_, ?_, ?_⟩
  · rw [h2]
    exact hWF.size_ok
  · rw [h3]
    exact hn
  · rw [h3, h2]
    exact hWF.unit_dvd
  · rw [h4]
    omega
  · rw [h4, h3]
    omega
  · rw [h5]
    exact ho0
  · rw [h5, h3]
    exact hon
  · rw [h5, h2]
    exact hWF.oldest_align
  · rw [h7, h4, h5, h3, if_neg (by omega)]
    rw [show st.oldest + (st.numinuse + 1) - 1 = st.oldest + st.numinuse by ring]
  · rw [h4, h6]
    push_cast
    omega
  · rw [h6]
    exact hseq
  · intro i hi
    rw [h3] at hi
    rw [hf i]
    simp only [arcMember, h4, h5, h3]
    by_cases hit : (i : Int) = (st.oldest + st.numinuse) % st.numslots
    · rw [if_pos hit]
      constructor
      · intro _
        refine ⟨st.numinuse.toNat, by omega, ?_⟩
        rw [Int.toNat_of_nonneg hu0]
        exact hit.symm
      · intro _
        simp only [ne_eq]
        omega
    · rw [if_neg hit]
      rw [hvi i hi]
      simp only [arcMember]
      constructor
      · rintro ⟨k, hk, he⟩
        exact ⟨k, by omega, he⟩
      · rintro ⟨k, hk, he⟩
        by_cases hku : k = st.numinuse.toNat
        · exfalso
          apply hit
          rw [← he, hku, Int.toNat_of_nonneg hu0]
        · exact ⟨k, by omega, he⟩
  · intro k hk
    rw [h4] at hk
    rw [h5, h3, h6, h4]
    rw [hf _]
    by_cases hku : k = st.numinuse.toNat
    · subst hku
      rw [if_pos (by rw [Int.toNat_of_nonneg (Int.emod_nonneg _ (by omega)),
        Int.toNat_of_nonneg hu0])]
      omega
    · have hklt : k < st.numinuse.toNat := by omega
      rw [if_neg, hsa k hklt]
      · omega
      · intro hcon
        rw [Int.toNat_of_nonneg (Int.emod_nonneg _ (by omega))] at hcon
        have hinj := @arc_pos_inj st.oldest st.numslots hn (k : Int) st.numinuse
          (by omega) (by omega) hu0 (by omega) hcon
        omega

theorem emod_add_cancel (a n : Int) : (a + n) % n = a % n := by
  have h := Int.add_mul_emod_self_left a n 1
  simpa using h

/-- `WF` is transferred through an evicting append on a full ring: the
erase unit at `oldest` is wiped (its `perUnit` slots), `oldest` advances by
`perUnit`, and the new entry lands on the old `oldest` slot. -/
theorem WF_step_evict (st st' : LogState) (fl fl' : Flash) (hWF : WF st fl)
    (hfull : st.numinuse = st.numslots) (hseq : st.highest_seqno + 1 < UNUSED)
    (h1 : st'.opened = true) (h2 : st'.datasize = st.datasize)
    (h3 : st'.numslots = st.numslots)
    (h4 : st'.numinuse = st.numslots - (perUnit st.datasize : Int) + 1)
    (h5 : st'.oldest = if st.oldest + (perUnit st.datasize : Int) = st.numslots
          then 0 else st.oldest + (perUnit st.datasize : Int))
    (h6 : st'.highest_seqno = st.highest_seqno + 1)
    (h7 : st'.newest = st.oldest)
    (hf : ∀ i : Nat, fl'.slots i =
      if (i : Int) = st.oldest then st.highest_seqno + 1
      else if st.oldest ≤ (i : Int) ∧
        (i : Int) < st.oldest + (perUnit st.datasize : Int) then UNUSED
      else fl.slots i) :
    WF st' fl' := by
  have hn := hWF.slots_pos
  have ho0 := hWF.oldest_lb
  have hon := hWF.oldest_ub
  have hu0 := hWF.inuse_lb
  have hun := hWF.inuse_ub
  have hsg := hWF.seq_ge
  have hsgn : st.numinuse.toNat ≤ st.highest_seqno := by omega
  have hE0 : (0 : Int) < (perUnit st.datasize : Int) := by
    exact_mod_cast perUnit_pos st.datasize hWF.size_ok
  -- oldest + perUnit ≤ numslots, from the two divisibility facts
  have hoE : st.oldest + (perUnit st.datasize : Int) ≤ st.numslots := by
    obtain ⟨a, ha⟩ := hWF.oldest_align
    obtain ⟨b, hb⟩ := hWF.unit_dvd
    have hab : a < b := by
      have hlt : (perUnit st.datasize : Int) * a < (perUnit st.datasize : Int) * b := by
        rw [← ha, ← hb]
        exact hon
      exact lt_of_mul_lt_mul_left hlt hE0.le
    have hstep : (perUnit st.datasize : Int) * (a + 1) ≤ (perUnit st.datasize : Int) * b :=
      mul_le_mul_of_nonneg_left (by omega) hE0.le
    have hexp : st.oldest + (perUnit st.datasize : Int)
        = (perUnit st.datasize : Int) * (a + 1) := by
      rw [ha]
      ring
    omega
  refine ⟨h1, ?_, ?_, ?_, ?_, ?_, ?_, ?_, ?_, ?_, ?_, ?_, ?_, ?_⟩
  · rw [h2]
    exact hWF.size_ok
  · rw [h3]
    exact hn
  · rw [h3, h2]
    exact hWF.unit_dvd
  · rw [h4]
    omega
  · rw [h4, h3]
    omega
  · rw [h5]
    split_ifs <;> omega
  · rw [h5, h3]
    split_ifs <;> omega
  · rw [h5, h2]
    split_ifs
    · exact Dvd.intro 0 rfl
    · exact Dvd.dvd.add hWF.oldest_align dvd_rfl
  · -- newest_eq
    rw [h7, h4, h5, h3]
    rw [if_neg (by omega)]
    split_ifs with he
    · rw [show (0 : Int) + (st.numslots - (perUnit st.datasize : Int) + 1) - 1
          = st.numslots - (perUnit st.datasize : Int) by ring]
      rw [Int.emod_eq_of_lt (by omega) (by omega)]
      omega
    · rw [show st.oldest + (perUnit st.datasize : Int)
            + (st.numslots - (perUnit st.datasize : Int) + 1) - 1
          = st.oldest + st.numslots by ring]
      rw [emod_add_cancel]
      exact (Int.emod_eq_of_lt ho0 hon).symm
  · rw [h4, h6]
    push_cast
    omega
  · rw [h6]
    exact hseq
  · -- valid_iff
    intro i hi
    rw [h3] at hi
    have hiN : (i : Int) < st.numslots := by omega
    have hi0 : (0 : Int) ≤ (i : Int) := Int.natCast_nonneg i
    have hold := hWF.valid_iff i hi
    rw [arcMember_iff st hn ho0 hon hu0 hun] at hold
    have hnew := arcMember_iff st'
      (by rw [h3]; exact hn)
      (by rw [h5]; split_ifs <;> omega)
      (by rw [h5, h3]; split_ifs <;> omega)
      (by rw [h4]; omega)
      (by rw [h4, h3]; omega) (i : Int)
    rw [h4, h5, h3] at hnew
    rw [hnew, hf i]
    by_cases hsv : fl.slots i = UNUSED
    · have hP := fun hp => (hold.2 hp) hsv
      split_ifs <;> omega
    · have hP := hold.1 hsv
      split_ifs <;> omega
  · -- seq_at
    intro k hk
    rw [h4] at hk
    rw [h5, h3, h6, h4]
    have hkE : (k : Int) ≤ st.numslots - (perUnit st.datasize : Int) := by omega
    have hsk : ((if st.oldest + (perUnit st.datasize : Int) = st.numslots then 0
        else st.oldest + (perUnit st.datasize : Int)) + (k : Int)) % st.numslots
        = (st.oldest + ((perUnit st.datasize + k : Nat) : Int)) % st.numslots := by
      push_cast
      split_ifs with he
      · rw [show st.oldest + ((perUnit st.datasize : Int) + (k : Int))
            = (k : Int) + st.numslots by omega]
        rw [emod_add_cancel]
        rw [show (0 : Int) + (k : Int) = (k : Int) by ring]
      · rw [show st.oldest + (perUnit st.datasize : Int) + (k : Int)
            = st.oldest + ((perUnit st.datasize : Int) + (k : Int)) by ring]
    rw [hsk]
    by_cases hkend : (k : Int) = st.numslots - (perUnit st.datasize : Int)
    · have hso : (st.oldest + ((perUnit st.datasize + k : Nat) : Int)) % st.numslots
          = st.oldest := by
        push_cast
        rw [show st.oldest + ((perUnit st.datasize : Int) + (k : Int))
            = st.oldest + st.numslots by omega]
        rw [emod_add_cancel]
        exact Int.emod_eq_of_lt ho0 hon
      rw [hso, hf _]
      rw [if_pos (by rw [Int.toNat_of_nonneg ho0])]
      omega
    · have hp : perUnit st.datasize + k < st.numinuse.toNat := by omega
      have holdk := hWF.seq_at (perUnit st.datasize + k) hp
      have hs0 : (0 : Int) ≤ (st.oldest + ((perUnit st.datasize + k : Nat) : Int))
          % st.numslots := Int.emod_nonneg _ (by omega)
      have hsn : (st.oldest + ((perUnit st.datasize + k : Nat) : Int)) % st.numslots
          < st.numslots := Int.emod_lt_of_pos _ hn
      have hins : ¬ (st.oldest
          ≤ (st.oldest + ((perUnit st.datasize + k : Nat) : Int)) % st.numslots ∧
          (st.oldest + ((perUnit st.datasize + k : Nat) : Int)) % st.numslots
          < st.oldest + (perUnit st.datasize : Int)) := by
      -- the slot of arc position perUnit + k is outside the erased unit
        rintro ⟨hA, hB⟩
        have hq : (st.oldest + ((perUnit st.datasize + k : Nat) : Int)) % st.numslots
            = (st.oldest + ((st.oldest + ((perUnit st.datasize + k : Nat) : Int))
                % st.numslots - st.oldest)) % st.numslots := by
          rw [show st.oldest + ((st.oldest + ((perUnit st.datasize + k : Nat) : Int))
              % st.numslots - st.oldest)
              = (st.oldest + ((perUnit st.datasize + k : Nat) : Int)) % st.numslots
              by ring]
          exact (Int.emod_eq_of_lt hs0 hsn).symm
        have hinj := @arc_pos_inj st.oldest st.numslots hn
          ((perUnit st.datasize + k : Nat) : Int)
          ((st.oldest + ((perUnit st.datasize + k : Nat) : Int)) % st.numslots
            - st.oldest)
          (by push_cast; omega) (by push_cast; omega) (by omega) (by omega) hq
        push_cast at hinj hA hB
        omega
      have hso : ¬ ((((st.oldest + ((perUnit st.datasize + k : Nat) : Int))
          % st.numslots).toNat : Int) = st.oldest) := by
        rw [Int.toNat_of_nonneg hs0]
        intro hceq
        exact hins ⟨by omega, by omega⟩
      rw [hf _]
      rw [if_neg hso]
      rw [if_neg (by rw [Int.toNat_of_nonneg hs0]; exact hins)]
      rw [holdk]
      have hc : ((st.numslots - (perUnit st.datasize : Int) + 1)).toNat
          = st.numslots.toNat - perUnit st.datasize + 1 := by omega
      have hcc : st.numinuse.toNat = st.numslots.toNat := by omega
      rw [hc, hcc]
      have hkn : perUnit st.datasize + k < st.numslots.toNat := by omega
      have hgn : st.numslots.toNat ≤ st.highest_seqno := by omega
      omega

/-- Full characterization of a successful, non-evicting `flashlog_add` on a
well-formed state: one slot write at `(oldest + numinuse) % numslots`, no
erase, and `WF` is preserved. -/
theorem add_nonfull_spec (st : LogState) (fl : Flash) (hWF : WF st fl)
    (hnf : st.numinuse < st.numslots) (hseq : st.highest_seqno + 1 < UNUSED) :
    (flashlog_add st fl true true).err = Err.OK ∧
    (flashlog_add st fl true true).trace
      = [IOOp.writeBytes
          (slotOffset st.datasize ((st.oldest + st.numinuse) % st.numslots))
          (entrysize st.datasize : Int)] ∧
    (flashlog_add st fl true true).st.numinuse = st.numinuse + 1 ∧
    (flashlog_add st fl true true).st.oldest = st.oldest ∧
    (flashlog_add st fl true true).st.newest
      = (st.oldest + st.numinuse) % st.numslots ∧
    (flashlog_add st fl true true).st.highest_seqno = st.highest_seqno + 1 ∧
    (flashlog_add st fl true true).st.numslots = st.numslots ∧
    (flashlog_add st fl true true).st.datasize = st.datasize ∧
    (flashlog_add st fl true true).st.opened = true ∧
    (flashlog_add st fl true true).fl.hdr = fl.hdr ∧
    (∀ i : Nat, (flashlog_add st fl true true).fl.slots i =
      if (i : Int) = (st.oldest + st.numinuse) % st.numslots
      then st.highest_seqno + 1 else fl.slots i) ∧
    WF (flashlog_add st fl true true).st (flashlog_add st fl true true).fl := by
  have hop := hWF.opened
  have htgt := advNewest_target st fl hWF
  have hseqmod : (st.highest_seqno + 1) % U32MOD = st.highest_seqno + 1 := by
    apply Nat.mod_eq_of_lt
    have h1 : UNUSED < U32MOD := by decide
    omega
  have hred : flashlog_add st fl true true =
      ⟨Err.OK,
       { advNewest st with
         highest_seqno := st.highest_seqno + 1,
         numinuse := st.numinuse + 1 },
       { fl with slots :=
          (writeSlot fl.slots ((st.oldest + st.numinuse) % st.numslots)
            (st.highest_seqno + 1)) },
       [IOOp.writeBytes
          (slotOffset st.datasize ((st.oldest + st.numinuse) % st.numslots))
          (entrysize st.datasize : Int)]⟩ := by
    simp only [flashlog_add, hop, Bool.not_true, Bool.false_eq_true, if_false,
      Bool.not_false, if_true, advNewest_numinuse, advNewest_numslots,
      advNewest_datasize, advNewest_highest]
    rw [if_neg (by omega), hseqmod, htgt]
  rw [hred]
  refine ⟨rfl, rfl, rfl, advNewest_oldest st, ?_, rfl, advNewest_numslots st,
    advNewest_datasize st, ?_, rfl, fun i => rfl, ?_⟩
  · show (advNewest st).newest = _
    exact htgt
  · show (advNewest st).opened = true
    rw [advNewest_opened]
    exact hop
  · apply WF_step_write st _ fl _ hWF hnf hseq
    · show (advNewest st).opened = true
      rw [advNewest_opened]
      exact hop
    · exact advNewest_datasize st
    · exact advNewest_numslots st
    · rfl
    · exact advNewest_oldest st
    · rfl
    · exact htgt
    · intro i
      rfl

/-- Full characterization of a successful, evicting `flashlog_add` on a
well-formed full ring: exactly one erase of 4096 bytes at the (4096-byte
aligned) offset of the `oldest` slot — which is also the append target —
followed by one slot write there; `numinuse` drops by `perUnit` and gains 1
for the new entry; `oldest` advances by `perUnit` mod `numslots`; and `WF`
is preserved. -/
theorem add_full_spec (st : LogState) (fl : Flash) (hWF : WF st fl)
    (hfull : st.numinuse = st.numslots) (hseq : st.highest_seqno + 1 < UNUSED) :
    (flashlog_add st fl true true).err = Err.OK ∧
    (flashlog_add st fl true true).trace
      = [IOOp.eraseRange (slotOffset st.datasize st.oldest) 4096,
         IOOp.writeBytes (slotOffset st.datasize st.oldest)
           (entrysize st.datasize : Int)] ∧
    (4096 : Int) ∣ slotOffset st.datasize st.oldest ∧
    (flashlog_add st fl true true).st.numinuse
      = st.numslots - (perUnit st.datasize : Int) + 1 ∧
    (flashlog_add st fl true true).st.oldest
      = (st.oldest + (perUnit st.datasize : Int)) % st.numslots ∧
    (flashlog_add st fl true true).st.newest = st.oldest ∧
    (flashlog_add st fl true true).st.highest_seqno = st.highest_seqno + 1 ∧
    (flashlog_add st fl true true).st.numslots = st.numslots ∧
    (flashlog_add st fl true true).st.datasize = st.datasize ∧
    (flashlog_add st fl true true).fl.hdr = fl.hdr ∧
    (∀ i : Nat, (flashlog_add st fl true true).fl.slots i =
      if (i : Int) = st.oldest then st.highest_seqno + 1
      else if st.oldest ≤ (i : Int) ∧
        (i : Int) < st.oldest + (perUnit st.datasize : Int) then UNUSED
      else fl.slots i) ∧
    WF (flashlog_add st fl true true).st (flashlog_add st fl true true).fl := by
  have hop := hWF.opened
  have hn := hWF.slots_pos
  have ho0 := hWF.oldest_lb
  have hon := hWF.oldest_ub
  have hE0 : (0 : Int) < (perUnit st.datasize : Int) := by
    exact_mod_cast perUnit_pos st.datasize hWF.size_ok
  have hoE : st.oldest + (perUnit st.datasize : Int) ≤ st.numslots := by
    obtain ⟨a, ha⟩ := hWF.oldest_align
    obtain ⟨b, hb⟩ := hWF.unit_dvd
    have hab : a < b := by
      have hlt : (perUnit st.datasize : Int) * a < (perUnit st.datasize : Int) * b := by
        rw [← ha, ← hb]
        exact hon
      exact lt_of_mul_lt_mul_left hlt hE0.le
    have hstep : (perUnit st.datasize : Int) * (a + 1) ≤ (perUnit st.datasize : Int) * b :=
      mul_le_mul_of_nonneg_left (by omega) hE0.le
    have hexp : st.oldest + (perUnit st.datasize : Int)
        = (perUnit st.datasize : Int) * (a + 1) := by
      rw [ha]
      ring
    omega
  have hnewo : (advNewest st).newest = st.oldest := by
    rw [advNewest_target st fl hWF, hfull, emod_add_cancel]
    exact Int.emod_eq_of_lt ho0 hon
  have hediv := ediv_4096 st.datasize hWF.size_ok
  have hseqmod : (st.highest_seqno + 1) % U32MOD = st.highest_seqno + 1 := by
    apply Nat.mod_eq_of_lt
    have h1 : UNUSED < U32MOD := by decide
    omega
  have hol : (if st.oldest + (perUnit st.datasize : Int) ≥ st.numslots
        then st.oldest + (perUnit st.datasize : Int) - st.numslots
        else st.oldest + (perUnit st.datasize : Int))
      = (if st.oldest + (perUnit st.datasize : Int) = st.numslots
        then 0 else st.oldest + (perUnit st.datasize : Int)) := by
    split_ifs <;> omega
  have hred : flashlog_add st fl true true =
      ⟨Err.OK,
       { advNewest st with
         numinuse := st.numslots - (perUnit st.datasize : Int) + 1,
         oldest := (if st.oldest + (perUnit st.datasize : Int) = st.numslots
                    then 0 else st.oldest + (perUnit st.datasize : Int)),
         highest_seqno := st.highest_seqno + 1 },
       { fl with slots := (writeSlot (eraseSlots st.datasize fl.slots
            (slotOffset st.datasize st.oldest)) st.oldest (st.highest_seqno + 1)) },
       [IOOp.eraseRange (slotOffset st.datasize st.oldest) 4096,
        IOOp.writeBytes (slotOffset st.datasize st.oldest)
          (entrysize st.datasize : Int)]⟩ := by
    simp only [flashlog_add, hop, Bool.not_true, Bool.false_eq_true, if_false,
      Bool.not_false, if_true, advNewest_numinuse, advNewest_numslots,
      advNewest_datasize, advNewest_highest, advNewest_oldest, hnewo, hediv,
      hseqmod]
    rw [if_pos hfull, hol, hfull]
  have hslots : ∀ i : Nat,
      (writeSlot (eraseSlots st.datasize fl.slots
        (slotOffset st.datasize st.oldest)) st.oldest (st.highest_seqno + 1)) i =
      if (i : Int) = st.oldest then st.highest_seqno + 1
      else if st.oldest ≤ (i : Int) ∧
        (i : Int) < st.oldest + (perUnit st.datasize : Int) then UNUSED
      else fl.slots i := by
    intro i
    unfold writeSlot
    by_cases hio : (i : Int) = st.oldest
    · rw [if_pos hio, if_pos hio]
    · rw [if_neg hio, if_neg hio, eraseSlots_char st.datasize hWF.size_ok]
  have halign : (4096 : Int) ∣ slotOffset st.datasize st.oldest := by
    obtain ⟨a, ha⟩ := hWF.oldest_align
    have h4096 : (4096 : Int) = (entrysize st.datasize : Int) * (perUnit st.datasize : Int) := by
      exact_mod_cast (len_mul_perUnit st.datasize hWF.size_ok).symm
    refine ⟨a + 1, ?_⟩
    unfold slotOffset SLOT0
    rw [ha]
    rw [show (perUnit st.datasize : Int) * a * (entrysize st.datasize : Int)
        = ((entrysize st.datasize : Int) * (perUnit st.datasize : Int)) * a by ring]
    rw [← h4096]
    ring
  have hoemod : (if st.oldest + (perUnit st.datasize : Int) = st.numslots
        then 0 else st.oldest + (perUnit st.datasize : Int))
      = (st.oldest + (perUnit st.datasize : Int)) % st.numslots := by
    split_ifs with he
    · rw [he, Int.emod_self]
    · exact (Int.emod_eq_of_lt (by omega) (by omega)).symm
  rw [hred]
  refine ⟨rfl, rfl, halign, rfl, hoemod, ?_, rfl, advNewest_numslots st,
    advNewest_datasize st, rfl, hslots, ?_⟩
  · show (advNewest st).newest = st.oldest
    exact hnewo
  · apply WF_step_evict st _ fl _ hWF hfull hseq
    · show (advNewest st).opened = true
      rw [advNewest_opened]
      exact hop
    · exact advNewest_datasize st
    · exact advNewest_numslots st
    · rfl
    · rfl
    · rfl
    · show (advNewest st).newest = st.oldest
      exact hnewo
    · exact hslots

/-! ### Claim theorems -/

/-- **C6**: on an open log with the cursor in range, every navigation call
fails with `FLASHLOG_ERR_BADSLOT` when the log is empty; when it is
non-empty, `goto_next` fails exactly at the newest slot and otherwise steps
the cursor one slot forward mod `numslots`, `goto_prev` fails exactly at the
oldest slot and otherwise steps one slot back mod `numslots`, and
`goto_oldest` / `goto_newest` always succeed, setting the cursor to the
oldest / newest slot. -/
theorem C6_navigation_spec (st : LogState)
    (hc0 : 0 ≤ st.current) (hcn : st.current < st.numslots) :
    (st.numinuse = 0 →
      flashlog_goto_oldest st = (Err.BADSLOT, st) ∧
      flashlog_goto_newest st = (Err.BADSLOT, st) ∧
      flashlog_goto_next st = (Err.BADSLOT, st) ∧
      flashlog_goto_prev st = (Err.BADSLOT, st)) ∧
    (0 < st.numinuse →
      flashlog_goto_oldest st = (Err.OK, { st with current := st.oldest }) ∧
      flashlog_goto_newest st = (Err.OK, { st with current := st.newest }) ∧
      ((flashlog_goto_next st).1 = Err.BADSLOT ↔ st.current = st.newest) ∧
      (st.current ≠ st.newest →
        flashlog_goto_next st =
          (Err.OK, { st with current := (st.current + 1) % st.numslots })) ∧
      ((flashlog_goto_prev st).1 = Err.BADSLOT ↔ st.current = st.oldest) ∧
      (st.current ≠ st.oldest →
        flashlog_goto_prev st =
          (Err.OK, { st with current := (st.current - 1) % st.numslots }))) := by
  constructor
  · intro h0
    refine ⟨?_, ?_, ?_, ?_⟩ <;>
      simp [flashlog_goto_oldest, flashlog_goto_newest, flashlog_goto_next,
        flashlog_goto_prev, h0]
  · intro hpos
    have hne : ¬ st.numinuse = 0 := by omega
    refine ⟨?_, ?_, ?_, ?_, ?_, ?_⟩
    · simp [flashlog_goto_oldest, hne]
    · simp [flashlog_goto_newest, hne]
    · simp only [flashlog_goto_next]
      constructor
      · intro h
        by_contra hc
        simp [hne, hc] at h
      · intro h
        simp [h]
    · intro hc
      simp only [flashlog_goto_next]
      rw [if_neg (by simp [hne, hc])]
      have hmod : (st.current + 1) % st.numslots =
          if st.current + 1 ≥ st.numslots then 0 else st.current + 1 := by
        rcases le_or_lt st.numslots (st.current + 1) with hge | hlt
        · have he : st.current + 1 = st.numslots := by omega
          rw [if_pos hge, he, Int.emod_self]
        · rw [if_neg (by omega)]
          exact Int.emod_eq_of_lt (by omega) hlt
      rw [hmod]
    · simp only [flashlog_goto_prev]
      constructor
      · intro h
        by_contra hc
        simp [hne, hc] at h
      · intro h
        simp [h]
    · intro hc
      simp only [flashlog_goto_prev]
      rw [if_neg (by simp [hne, hc])]
      have hmod : (st.current - 1) % st.numslots =
          if st.current - 1 < 0 then st.numslots - 1 else st.current - 1 := by
        rcases lt_or_le (st.current - 1) 0 with hlt | hge
        · have he : st.current = 0 := by omega
          rw [if_pos hlt, he]
          have h1 : (0 - 1 : Int) = (st.numslots - 1) - st.numslots := by ring
          rw [h1, emod_shift]
          exact Int.emod_eq_of_lt (by omega) (by omega)
        · rw [if_neg (by omega)]
          exact Int.emod_eq_of_lt hge (by omega)
      rw [hmod]

/-- Closed witness for `C6_navigation_spec`: a concrete non-empty two-slot
state on which the theorem's hypotheses hold and its conclusions evaluate. -/
theorem C6_navigation_spec_witness :
    (0 : Int) ≤ 1 ∧ (1 : Int) < 2 ∧
    (flashlog_goto_next ⟨true, 2044, 2, 2, 2, 1, 0, 1⟩).1 = Err.BADSLOT := by
  refine ⟨by decide, by decide, ?_⟩
  have h := C6_navigation_spec ⟨true, 2044, 2, 2, 2, 1, 0, 1⟩ (by decide) (by decide)
  exact (h.2 (by decide)).2.2.1.2 rfl

/-- **C10** (implicit): the four navigation operations never check that the
log is open — unlike `flashlog_add` and `flashlog_read`, which return
`FLASHLOG_ERR_NOINIT` on a closed state.  On a closed (or never-opened)
state each navigation call still returns `OK` or `BADSLOT`, with exactly the
result it would give on the identical state marked open. -/
theorem C10_navigation_ignores_open (st : LogState) (fl : Flash)
    (h : st.opened = false) (eraseOk writeOk readOk : Bool) :
    ((flashlog_goto_oldest st).1 = Err.OK ∨ (flashlog_goto_oldest st).1 = Err.BADSLOT) ∧
    ((flashlog_goto_newest st).1 = Err.OK ∨ (flashlog_goto_newest st).1 = Err.BADSLOT) ∧
    ((flashlog_goto_next st).1 = Err.OK ∨ (flashlog_goto_next st).1 = Err.BADSLOT) ∧
    ((flashlog_goto_prev st).1 = Err.OK ∨ (flashlog_goto_prev st).1 = Err.BADSLOT) ∧
    (flashlog_goto_oldest st).1 = (flashlog_goto_oldest { st with opened := true }).1 ∧
    (flashlog_goto_newest st).1 = (flashlog_goto_newest { st with opened := true }).1 ∧
    (flashlog_goto_next st).1 = (flashlog_goto_next { st with opened := true }).1 ∧
    (flashlog_goto_prev st).1 = (flashlog_goto_prev { st with opened := true }).1 ∧
    (flashlog_add st fl eraseOk writeOk).err = Err.NOINIT ∧
    (flashlog_read st readOk).1 = Err.NOINIT := by
  refine ⟨?_, ?_, ?_, ?_, ?_, ?_, ?_, ?_, ?_, ?_⟩ <;>
    simp [flashlog_goto_oldest, flashlog_goto_newest, flashlog_goto_next,
      flashlog_goto_prev, flashlog_add, flashlog_read, h] <;>
    split_ifs <;> simp

/-- `scanSlot` on an unused slot leaves the accumulator unchanged. -/
theorem scanSlot_unused (slots : Nat → Nat) (slot : Nat) (acc : ScanAcc)
    (h : slots slot = UNUSED) : scanSlot slots slot acc = acc := by
  unfold scanSlot
  rw [if_neg (by simpa using h)]

/-- `scanSlot` on a valid slot: count it, take it as newest when its
sequence number strictly exceeds the running maximum, and as oldest when it
is strictly below the running minimum. -/
theorem scanSlot_valid (slots : Nat → Nat) (slot : Nat) (acc : ScanAcc)
    (h : slots slot ≠ UNUSED) :
    scanSlot slots slot acc =
      { numinuse := acc.numinuse + 1,
        highest_seqno := if slots slot > acc.highest_seqno
                         then slots slot else acc.highest_seqno,
        newest := if slots slot > acc.highest_seqno then (slot : Int) else acc.newest,
        oldest := if slots slot < acc.oldest_seqno then (slot : Int) else acc.oldest,
        oldest_seqno := if slots slot < acc.oldest_seqno
                        then slots slot else acc.oldest_seqno } := by
  by_cases c1 : slots slot > acc.highest_seqno <;>
    by_cases c2 : slots slot < acc.oldest_seqno <;>
      simp [scanSlot, h, c1, c2]

/-- Correctness of the recovery scan fold: over slots `0..m-1`, if every
slot is unused the accumulator is returned unchanged; otherwise the scan
ends with `newest`/`highest_seqno` at a maximal valid slot and
`oldest`/`oldest_seqno` at a minimal one.  (Requires every valid sequence
number to be positive and below the sentinel, which holds for any flash the
module itself wrote.) -/
theorem scan_spec (slots : Nat → Nat) (m : Nat)
    (hv : ∀ i, i < m → slots i ≠ UNUSED → 1 ≤ slots i ∧ slots i < UNUSED)
    (a0 : ScanAcc) (h0 : a0.highest_seqno = 0) (h2 : a0.oldest_seqno = UNUSED) :
    ((∀ i, i < m → slots i = UNUSED) → scan slots m a0 = a0) ∧
    ((∃ i, i < m ∧ slots i ≠ UNUSED) →
      ∃ jN jO : Nat, jN < m ∧ jO < m ∧ slots jN ≠ UNUSED ∧ slots jO ≠ UNUSED ∧
        (scan slots m a0).newest = (jN : Int) ∧
        (scan slots m a0).highest_seqno = slots jN ∧
        (scan slots m a0).oldest = (jO : Int) ∧
        (scan slots m a0).oldest_seqno = slots jO ∧
        (∀ i, i < m → slots i ≠ UNUSED → slots i ≤ slots jN ∧ slots jO ≤ slots i)) := by
  induction m with
  | zero =>
    refine ⟨fun _ => rfl, ?_⟩
    rintro ⟨i, hi, _⟩
    omega
  | succ m ih =>
    have ihm := ih (fun i hi hne => hv i (by omega) hne)
    have hstep : scan slots (m + 1) a0 = scanSlot slots m (scan slots m a0) := rfl
    by_cases hm : slots m = UNUSED
    · rw [hstep, scanSlot_unused slots m _ hm] at *
      constructor
      · intro hall
        exact ihm.1 (fun i hi => hall i (by omega))
      · rintro ⟨i, hi, hval⟩
        have him : i < m := by
          rcases Nat.lt_succ_iff_lt_or_eq.1 hi with h | h
          · exact h
          · exact absurd (h ▸ hval) (by simp [hm])
        obtain ⟨jN, jO, hjN, hjO, hvN, hvO, e1, e2, e3, e4, hmax⟩ :=
          ihm.2 ⟨i, him, hval⟩
        refine ⟨jN, jO, by omega, by omega, hvN, hvO, e1, e2, e3, e4, ?_⟩
        intro i' hi' hval'
        have him' : i' < m := by
          rcases Nat.lt_succ_iff_lt_or_eq.1 hi' with h | h
          · exact h
          · exact absurd (h ▸ hval') (by simp [hm])
        exact hmax i' him' hval'
    · have hs1 : 1 ≤ slots m := (hv m (by omega) hm).1
      have hsU : slots m < UNUSED := (hv m (by omega) hm).2
      refine ⟨fun hall => absurd (hall m (by omega)) hm, fun _ => ?_⟩
      rw [hstep, scanSlot_valid slots m _ hm]
      by_cases hany : ∃ i, i < m ∧ slots i ≠ UNUSED
      · obtain ⟨jN, jO, hjN, hjO, hvN, hvO, e1, e2, e3, e4, hmax⟩ := ihm.2 hany
        by_cases hgt : slots m > (scan slots m a0).highest_seqno
        · by_cases hlt : slots m < (scan slots m a0).oldest_seqno
          · refine ⟨m, m, by omega, by omega, hm, hm,
              by simp only [if_pos hgt, if_pos hlt],
              by simp only [if_pos hgt, if_pos hlt],
              by simp only [if_pos hgt, if_pos hlt],
              by simp only [if_pos hgt, if_pos hlt], ?_⟩
            intro i hi hval
            rw [e2] at hgt
            rw [e4] at hlt
            rcases Nat.lt_succ_iff_lt_or_eq.1 hi with h | h
            · have := hmax i h hval
              omega
            · subst h
              omega
          · refine ⟨m, jO, by omega, by omega, hm, hvO,
              by simp only [if_pos hgt, if_neg hlt],
              by simp only [if_pos hgt, if_neg hlt],
              by simp only [if_pos hgt, if_neg hlt]; exact e3,
              by simp only [if_pos hgt, if_neg hlt]; exact e4, ?_⟩
            intro i hi hval
            rw [e2] at hgt
            rw [e4] at hlt
            rcases Nat.lt_succ_iff_lt_or_eq.1 hi with h | h
            · have := hmax i h hval
              omega
            · subst h
              omega
        · by_cases hlt : slots m < (scan slots m a0).oldest_seqno
          · refine ⟨jN, m, by omega, by omega, hvN, hm,
              by simp only [if_neg hgt, if_pos hlt]; exact e1,
              by simp only [if_neg hgt, if_pos hlt]; exact e2,
              by simp only [if_neg hgt, if_pos hlt],
              by simp only [if_neg hgt, if_pos hlt], ?_⟩
            intro i hi hval
            rw [e2] at hgt
            rw [e4] at hlt
            rcases Nat.lt_succ_iff_lt_or_eq.1 hi with h | h
            · have := hmax i h hval
              omega
            · subst h
              omega
          · refine ⟨jN, jO, by omega, by omega, hvN, hvO,
              by simp only [if_neg hgt, if_neg hlt]; exact e1,
              by simp only [if_neg hgt, if_neg hlt]; exact e2,
              by simp only [if_neg hgt, if_neg hlt]; exact e3,
              by simp only [if_neg hgt, if_neg hlt]; exact e4, ?_⟩
            intro i hi hval
            rw [e2] at hgt
            rw [e4] at hlt
            rcases Nat.lt_succ_iff_lt_or_eq.1 hi with h | h
            · have := hmax i h hval
              omega
            · subst h
              omega
      · have hempty := ihm.1 (by
          intro i hi
          by_contra hne
          exact hany ⟨i, hi, hne⟩)
        rw [hempty, h0, h2]
        have hgt : slots m > 0 := by omega
        have hlt : slots m < UNUSED := hsU
        refine ⟨m, m, by omega, by omega, hm, hm,
          by simp only [if_pos hgt, if_pos hlt],
          by simp only [if_pos hgt, if_pos hlt],
          by simp only [if_pos hgt, if_pos hlt],
          by simp only [if_pos hgt, if_pos hlt], ?_⟩
        intro i hi hval
        rcases Nat.lt_succ_iff_lt_or_eq.1 hi with h | h
        · exact absurd hval (by
            by_contra hne
            exact hany ⟨i, h, hval⟩)
        · subst h
          omega

/-- Recovery correctness: reopening a well-formed, non-empty region whose
stored header matches the request performs no write or erase, leaves the
flash unchanged, and recomputes `oldest`, `newest`, `highest_seqno` (and
`current := newest`) to exactly their pre-close values — the scan's minimum
sequence number is at the arc start and its maximum at the arc end. -/
theorem open_recovery_fields (st0 stW : LogState) (fl : Flash) (capacity : Nat)
    (hWF : WF stW fl) (hpos : 0 < stW.numinuse)
    (hhdr : fl.hdr = some ⟨stW.datasize, stW.numslots⟩) :
    (flashlog_open st0 fl capacity stW.datasize true true true true true).err
      = Err.OK ∧
    (flashlog_open st0 fl capacity stW.datasize true true true true true).fl = fl ∧
    (flashlog_open st0 fl capacity stW.datasize true true true true true).st.numslots
      = stW.numslots ∧
    (flashlog_open st0 fl capacity stW.datasize true true true true true).st.oldest
      = stW.oldest ∧
    (flashlog_open st0 fl capacity stW.datasize true true true true true).st.newest
      = stW.newest ∧
    (flashlog_open st0 fl capacity stW.datasize true true true true true).st.current
      = stW.newest ∧
    (flashlog_open st0 fl capacity stW.datasize true true true true true).st.highest_seqno
      = stW.highest_seqno := by
  have hn := hWF.slots_pos
  have ho0 := hWF.oldest_lb
  have hon := hWF.oldest_ub
  have hu0 := hWF.inuse_lb
  have hun := hWF.inuse_ub
  have hsg := hWF.seq_ge
  have hsl := hWF.seq_lt
  have hsgn : stW.numinuse.toNat ≤ stW.highest_seqno := by omega
  have hupos : 1 ≤ stW.numinuse.toNat := by omega
  -- every valid slot's sequence number is positive and below the sentinel
  have hv : ∀ i, i < stW.numslots.toNat → fl.slots i ≠ UNUSED →
      1 ≤ fl.slots i ∧ fl.slots i < UNUSED := by
    intro i hi hval
    obtain ⟨k, hk, he⟩ := (hWF.valid_iff i hi).1 hval
    have hie : i = ((stW.oldest + (k : Int)) % stW.numslots).toNat := by omega
    rw [hie, hWF.seq_at k hk]
    omega
  -- the value recorded at arc position `k`
  have hval_at : ∀ k : Nat, k < stW.numinuse.toNat →
      fl.slots ((stW.oldest + (k : Int)) % stW.numslots).toNat
        = stW.highest_seqno + 1 + k - stW.numinuse.toNat := hWF.seq_at
  -- the arc-start slot is valid, so the scan is in the non-empty case
  have hoval : fl.slots stW.oldest.toNat ≠ UNUSED := by
    have hm := (hWF.valid_iff stW.oldest.toNat (by omega)).2
      ⟨0, hupos, by rw [Int.toNat_of_nonneg ho0]; simpa using Int.emod_eq_of_lt ho0 hon⟩
    exact hm
  have hex : ∃ i, i < stW.numslots.toNat ∧ fl.slots i ≠ UNUSED :=
    ⟨stW.oldest.toNat, by omega, hoval⟩
  obtain ⟨jN, jO, hjN, hjO, hvN, hvO, e1, e2, e3, e4, hmax⟩ :=
    (scan_spec fl.slots stW.numslots.toNat hv
      ⟨st0.numinuse, 0, 0, 0, UNUSED⟩ rfl rfl).2 hex
  -- identify the scan's maximum with the arc end
  obtain ⟨kN, hkN, heN⟩ := (hWF.valid_iff jN hjN).1 hvN
  have hjNe : jN = ((stW.oldest + (kN : Int)) % stW.numslots).toNat := by omega
  have hvNval : fl.slots jN = stW.highest_seqno + 1 + kN - stW.numinuse.toNat := by
    rw [hjNe]
    exact hval_at kN hkN
  have hwk : fl.slots ((stW.oldest + ((stW.numinuse.toNat - 1 : Nat) : Int))
      % stW.numslots).toNat
      = stW.highest_seqno := by
    rw [hval_at (stW.numinuse.toNat - 1) (by omega)]
    omega
  have hwlt : ((stW.oldest + ((stW.numinuse.toNat - 1 : Nat) : Int))
      % stW.numslots).toNat < stW.numslots.toNat := by
    have := Int.emod_lt_of_pos (stW.oldest + ((stW.numinuse.toNat - 1 : Nat) : Int)) hn
    have := Int.emod_nonneg (stW.oldest + ((stW.numinuse.toNat - 1 : Nat) : Int))
      (by omega : stW.numslots ≠ 0)
    omega
  have hwval : fl.slots ((stW.oldest + ((stW.numinuse.toNat - 1 : Nat) : Int))
      % stW.numslots).toNat ≠ UNUSED := by
    rw [hwk]
    omega
  have hkNmax : kN = stW.numinuse.toNat - 1 := by
    have hle := (hmax _ hwlt hwval).1
    rw [hwk, hvNval] at hle
    omega
  -- identify the scan's minimum with the arc start
  obtain ⟨kO, hkO, heO⟩ := (hWF.valid_iff jO hjO).1 hvO
  have hjOe : jO = ((stW.oldest + (kO : Int)) % stW.numslots).toNat := by omega
  have hvOval : fl.slots jO = stW.highest_seqno + 1 + kO - stW.numinuse.toNat := by
    rw [hjOe]
    exact hval_at kO hkO
  have hosl : fl.slots stW.oldest.toNat
      = stW.highest_seqno + 1 - stW.numinuse.toNat := by
    have h0' := hval_at 0 (by omega)
    rw [show ((0 : Nat) : Int) = (0 : Int) by rfl] at h0'
    rw [show stW.oldest + (0 : Int) = stW.oldest by ring] at h0'
    rw [Int.emod_eq_of_lt ho0 hon] at h0'
    simpa using h0'
  have hkOmin : kO = 0 := by
    have hge := (hmax stW.oldest.toNat (by omega) hoval).2
    rw [hosl, hvOval] at hge
    omega
  -- the recovered values
  have hnewest : ((jN : Nat) : Int) = stW.newest := by
    rw [hjNe, hkNmax]
    rw [Int.toNat_of_nonneg (Int.emod_nonneg _ (by omega : stW.numslots ≠ 0))]
    rw [hWF.newest_eq, if_neg (by omega)]
    congr 1
    push_cast
    omega
  have holdest : ((jO : Nat) : Int) = stW.oldest := by
    rw [hjOe, hkOmin]
    rw [Int.toNat_of_nonneg (Int.emod_nonneg _ (by omega : stW.numslots ≠ 0))]
    rw [show stW.oldest + ((0 : Nat) : Int) = stW.oldest by push_cast; ring]
    exact Int.emod_eq_of_lt ho0 hon
  have hhigh : fl.slots jN = stW.highest_seqno := by
    rw [hvNval, hkNmax]
    omega
  -- reduce the open call
  simp only [flashlog_open, hWF.size_ok, hhdr, Bool.not_true, Bool.false_eq_true,
    if_false, Bool.not_false, if_true]
  refine ⟨trivial, trivial, trivial, ?_, ?_, ?_, ?_⟩
  · rw [e3, holdest]
  · rw [e1, hnewest]
  · rw [e1, hnewest]
  · rw [e2, hhigh]

/-- Invariant I3 follows from `WF`: sequence numbers strictly increase
along the oldest→newest arc. -/
theorem WF_seq_strict_mono (st : LogState) (fl : Flash) (hWF : WF st fl)
    {j k : Nat} (hjk : j < k) (hk : k < st.numinuse.toNat) :
    fl.slots ((st.oldest + (j : Int)) % st.numslots).toNat
      < fl.slots ((st.oldest + (k : Int)) % st.numslots).toNat := by
  rw [hWF.seq_at j (by omega), hWF.seq_at k hk]
  have hsg := hWF.seq_ge
  omega

/-- **C1**: appending to a well-formed open log whose ring is full
(`inUseCount = slotCount`) issues exactly one erase — of one 4096-byte
erase unit, at the 4096-byte-aligned byte offset of the `oldest` slot,
which is itself the append target, so the erased block is the aligned block
containing the append target and only that block — before the slot write.
This single step removes exactly `perUnit = 4096/(S+4)` of the oldest
entries, never fewer and never a partial entry: the `perUnit` slots of the
erase unit all lose their entries (the target slot is then rewritten with
the new entry), every slot outside the unit is untouched, `inUseCount`
drops by `perUnit` (the completed append then adds one entry back), and
`oldestSlotIndex` advances by exactly `perUnit` mod `slotCount`. -/
theorem C1_full_add_eviction (st : LogState) (fl : Flash) (hWF : WF st fl)
    (hfull : st.numinuse = st.numslots) (hseq : st.highest_seqno + 1 < UNUSED) :
    (flashlog_add st fl true true).err = Err.OK ∧
    (flashlog_add st fl true true).trace
      = [IOOp.eraseRange (slotOffset st.datasize st.oldest) 4096,
         IOOp.writeBytes (slotOffset st.datasize st.oldest)
           (entrysize st.datasize : Int)] ∧
    (4096 : Int) ∣ slotOffset st.datasize st.oldest ∧
    (flashlog_add st fl true true).st.newest = st.oldest ∧
    (flashlog_add st fl true true).st.numinuse
      = st.numslots - (perUnit st.datasize : Int) + 1 ∧
    (flashlog_add st fl true true).st.oldest
      = (st.oldest + (perUnit st.datasize : Int)) % st.numslots ∧
    (∀ k : Nat, 1 ≤ k → k < perUnit st.datasize →
      (flashlog_add st fl true true).fl.slots (st.oldest + (k : Int)).toNat
        = UNUSED) ∧
    (flashlog_add st fl true true).fl.slots st.oldest.toNat
      = st.highest_seqno + 1 ∧
    (∀ i : Nat, ¬ (st.oldest ≤ (i : Int) ∧
        (i : Int) < st.oldest + (perUnit st.datasize : Int)) →
      (flashlog_add st fl true true).fl.slots i = fl.slots i) := by
  obtain ⟨e1, e2, e3, e4, e5, e6, e7, e8, e9, e10, e11, e12⟩ :=
    add_full_spec st fl hWF hfull hseq
  have ho0 := hWF.oldest_lb
  refine ⟨e1, e2, e3, e6, e4, e5, ?_, ?_, ?_⟩
  · intro k hk1 hkE
    rw [e11 (st.oldest + (k : Int)).toNat]
    have hck : (((st.oldest + (k : Int)).toNat : Nat) : Int) = st.oldest + k :=
      Int.toNat_of_nonneg (by omega)
    rw [hck]
    have hkE' : (k : Int) < (perUnit st.datasize : Int) := by exact_mod_cast hkE
    rw [if_neg (by omega), if_pos (by omega)]
  · rw [e11 st.oldest.toNat]
    rw [if_pos (Int.toNat_of_nonneg ho0)]
  · intro i hni
    have hE0 : (0 : Int) < (perUnit st.datasize : Int) := by
      exact_mod_cast perUnit_pos st.datasize hWF.size_ok
    rw [e11 i]
    rw [if_neg (by omega), if_neg hni]

/-- Closed witness for `C1_full_add_eviction`: a full two-slot ring
(slot size 2048, two slots per erase unit) holding sequence numbers 1 and 2;
the evicting append erases both and writes sequence number 3 into slot 0. -/
theorem C1_full_add_eviction_witness :
    (flashlog_add ⟨true, 2044, 2, 2, 2, 1, 0, 0⟩
      ⟨some ⟨2044, 2⟩, fun i => if i = 0 then 1 else if i = 1 then 2 else UNUSED⟩
      true true).st.numinuse = 1 ∧
    (flashlog_add ⟨true, 2044, 2, 2, 2, 1, 0, 0⟩
      ⟨some ⟨2044, 2⟩, fun i => if i = 0 then 1 else if i = 1 then 2 else UNUSED⟩
      true true).fl.slots 1 = UNUSED ∧
    (flashlog_add ⟨true, 2044, 2, 2, 2, 1, 0, 0⟩
      ⟨some ⟨2044, 2⟩, fun i => if i = 0 then 1 else if i = 1 then 2 else UNUSED⟩
      true true).fl.slots 0 = 3 := by
  have hWF : WF ⟨true, 2044, 2, 2, 2, 1, 0, 0⟩
      ⟨some ⟨2044, 2⟩, fun i => if i = 0 then 1 else if i = 1 then 2 else UNUSED⟩ :=
    ⟨rfl, by decide, by decide, ⟨1, by decide⟩, by decide, by decide, by decide,
     by decide, ⟨0, by decide⟩, by decide, by decide, by decide,
     by decide, by decide⟩
  have h := C1_full_add_eviction ⟨true, 2044, 2, 2, 2, 1, 0, 0⟩
    ⟨some ⟨2044, 2⟩, fun i => if i = 0 then 1 else if i = 1 then 2 else UNUSED⟩
    hWF rfl (by decide)
  refine ⟨?_, ?_, ?_⟩
  · rw [h.2.2.2.2.1]
    decide
  · have hk := h.2.2.2.2.2.2.1 1 (le_refl 1) (by decide)
    simpa using hk
  · have ho := h.2.2.2.2.2.2.2.1
    simpa using ho

/-- **C5**: a successful `flashlog_add` on a well-formed open log (whether
or not it evicts) assigns the new entry sequence number
`highest_seqno + 1`, writes it at the new `newest` slot, preserves the
well-formedness invariant `WF` — and therefore the sequence numbers
recorded along the oldest→newest arc are strictly increasing (invariant
I3) after the append; by induction this holds for every sequence of
successful appends.  The final conjunct covers recovery: reopening the
region leaves the flash and the `oldest`/`newest` arc endpoints and
`highest_seqno` unchanged, so I3 is preserved by recovery as well. -/
theorem C5_monotonic_sequencing (st : LogState) (fl : Flash) (hWF : WF st fl)
    (hseq : st.highest_seqno + 1 < UNUSED) :
    (flashlog_add st fl true true).err = Err.OK ∧
    (flashlog_add st fl true true).st.highest_seqno = st.highest_seqno + 1 ∧
    (flashlog_add st fl true true).fl.slots
      ((flashlog_add st fl true true).st.newest).toNat = st.highest_seqno + 1 ∧
    WF (flashlog_add st fl true true).st (flashlog_add st fl true true).fl ∧
    (∀ j k : Nat, j < k → k < (flashlog_add st fl true true).st.numinuse.toNat →
      (flashlog_add st fl true true).fl.slots
        (((flashlog_add st fl true true).st.oldest + (j : Int))
          % (flashlog_add st fl true true).st.numslots).toNat
      < (flashlog_add st fl true true).fl.slots
        (((flashlog_add st fl true true).st.oldest + (k : Int))
          % (flashlog_add st fl true true).st.numslots).toNat) ∧
    (∀ st0 : LogState, ∀ capacity : Nat,
      fl.hdr = some ⟨st.datasize, st.numslots⟩ → 0 < st.numinuse →
      (flashlog_open st0 fl capacity st.datasize true true true true true).fl = fl ∧
      (flashlog_open st0 fl capacity st.datasize true true true true true).st.oldest
        = st.oldest ∧
      (flashlog_open st0 fl capacity st.datasize true true true true true).st.newest
        = st.newest ∧
      (flashlog_open st0 fl capacity st.datasize
          true true true true true).st.highest_seqno = st.highest_seqno) := by
  have hrec : ∀ st0 : LogState, ∀ capacity : Nat,
      fl.hdr = some ⟨st.datasize, st.numslots⟩ → 0 < st.numinuse →
      (flashlog_open st0 fl capacity st.datasize true true true true true).fl = fl ∧
      (flashlog_open st0 fl capacity st.datasize true true true true true).st.oldest
        = st.oldest ∧
      (flashlog_open st0 fl capacity st.datasize true true true true true).st.newest
        = st.newest ∧
      (flashlog_open st0 fl capacity st.datasize
          true true true true true).st.highest_seqno = st.highest_seqno := by
    intro st0 capacity hh hp
    have h := open_recovery_fields st0 st fl capacity hWF hp hh
    exact ⟨h.2.1, h.2.2.2.1, h.2.2.2.2.1, h.2.2.2.2.2.2⟩
  by_cases hfull : st.numinuse = st.numslots
  · obtain ⟨e1, e2, e3, e4, e5, e6, e7, e8, e9, e10, e11, e12⟩ :=
      add_full_spec st fl hWF hfull hseq
    refine ⟨e1, e7, ?_, e12, ?_, hrec⟩
    · rw [e6, e11 st.oldest.toNat, if_pos (Int.toNat_of_nonneg hWF.oldest_lb)]
    · intro j k hjk hk
      exact WF_seq_strict_mono _ _ e12 hjk hk
  · have hnf : st.numinuse < st.numslots :=
      lt_of_le_of_ne hWF.inuse_ub hfull
    obtain ⟨e1, e2, e3, e4, e5, e6, e7, e8, e9, e10, e11, e12⟩ :=
      add_nonfull_spec st fl hWF hnf hseq
    refine ⟨e1, e6, ?_, e12, ?_, hrec⟩
    · have ht0 : 0 ≤ (st.oldest + st.numinuse) % st.numslots :=
        Int.emod_nonneg _ (by have := hWF.slots_pos; omega)
      rw [e5, e11 ((st.oldest + st.numinuse) % st.numslots).toNat,
        if_pos (Int.toNat_of_nonneg ht0)]
    · intro j k hjk hk
      exact WF_seq_strict_mono _ _ e12 hjk hk

/-- Closed witness for `C5_monotonic_sequencing`: appending to a one-entry
two-slot log writes sequence number 2 and the arc `1 < 2` is strictly
increasing. -/
theorem C5_monotonic_sequencing_witness :
    (flashlog_add ⟨true, 2044, 2, 1, 1, 0, 0, 0⟩
      ⟨some ⟨2044, 2⟩, fun i => if i = 0 then 1 else UNUSED⟩
      true true).st.highest_seqno = 2 ∧
    (flashlog_add ⟨true, 2044, 2, 1, 1, 0, 0, 0⟩
      ⟨some ⟨2044, 2⟩, fun i => if i = 0 then 1 else UNUSED⟩
      true true).fl.slots 0
      < (flashlog_add ⟨true, 2044, 2, 1, 1, 0, 0, 0⟩
      ⟨some ⟨2044, 2⟩, fun i => if i = 0 then 1 else UNUSED⟩
      true true).fl.slots 1 := by
  have hWF : WF ⟨true, 2044, 2, 1, 1, 0, 0, 0⟩
      ⟨some ⟨2044, 2⟩, fun i => if i = 0 then 1 else UNUSED⟩ :=
    ⟨rfl, by decide, by decide, ⟨1, by decide⟩, by decide, by decide, by decide,
     by decide, ⟨0, by decide⟩, by decide, by decide, by decide,
     by decide, by decide⟩
  have h := C5_monotonic_sequencing ⟨true, 2044, 2, 1, 1, 0, 0, 0⟩
    ⟨some ⟨2044, 2⟩, fun i => if i = 0 then 1 else UNUSED⟩ hWF (by decide)
  refine ⟨by rw [h.2.1], ?_⟩
  have hm := h.2.2.2.2.1 0 1 (by decide) (by decide)
  have hidx0 : (((flashlog_add ⟨true, 2044, 2, 1, 1, 0, 0, 0⟩
      ⟨some ⟨2044, 2⟩, fun i => if i = 0 then 1 else UNUSED⟩
      true true).st.oldest + ((0 : Nat) : Int))
      % (flashlog_add ⟨true, 2044, 2, 1, 1, 0, 0, 0⟩
      ⟨some ⟨2044, 2⟩, fun i => if i = 0 then 1 else UNUSED⟩
      true true).st.numslots).toNat = 0 := by decide
  have hidx1 : (((flashlog_add ⟨true, 2044, 2, 1, 1, 0, 0, 0⟩
      ⟨some ⟨2044, 2⟩, fun i => if i = 0 then 1 else UNUSED⟩
      true true).st.oldest + ((1 : Nat) : Int))
      % (flashlog_add ⟨true, 2044, 2, 1, 1, 0, 0, 0⟩
      ⟨some ⟨2044, 2⟩, fun i => if i = 0 then 1 else UNUSED⟩
      true true).st.numslots).toNat = 1 := by decide
  rw [hidx0, hidx1] at hm
  exact hm

/-- **C4**: on an open log satisfying invariant I1, `flashlog_read` returns
`FLASHLOG_ERR_BADSLOT` exactly when the log is empty or the cursor does not
lie on the oldest→newest arc (wraparound-aware membership, which in
particular excludes every out-of-bounds cursor, negative or
`≥ numslots`). -/
theorem C4_read_badslot_iff (st : LogState) (fl : Flash) (readOk : Bool)
    (hop : st.opened = true) (hI1 : InvariantI1 st fl) :
    ((flashlog_read st readOk).1 = Err.BADSLOT ↔
      (st.numinuse = 0 ∨ ¬ arcMember st st.current)) := by
  obtain ⟨hu0, hun, hcur, _⟩ := hI1
  have key : (st.numinuse = 0
      ∨ (st.newest ≥ st.oldest ∧ (st.current < st.oldest ∨ st.current > st.newest))
      ∨ (st.newest < st.oldest ∧ (st.current ≥ st.numslots ∨ st.current < 0))
      ∨ (st.current > st.newest ∧ st.current < st.oldest)) ↔
      (st.numinuse = 0 ∨ ¬ arcMember st st.current) := by
    rcases eq_or_lt_of_le hu0 with hz | hpos
    · simp [← hz]
    · obtain ⟨ho0, hon, hnew⟩ := hcur hpos
      have hn : 0 < st.numslots := by omega
      rw [arcMember_iff st hn ho0 hon hu0 hun]
      rw [emod_two_period hn (by omega) (by omega)] at hnew
      split_ifs at hnew <;> omega
  simp only [flashlog_read, hop, Bool.not_true, Bool.false_eq_true, if_false]
  by_cases hG : (st.numinuse = 0
      ∨ (st.newest ≥ st.oldest ∧ (st.current < st.oldest ∨ st.current > st.newest))
      ∨ (st.newest < st.oldest ∧ (st.current ≥ st.numslots ∨ st.current < 0))
      ∨ (st.current > st.newest ∧ st.current < st.oldest))
  · rw [if_pos hG]
    exact iff_of_true rfl (key.1 hG)
  · rw [if_neg hG]
    refine iff_of_false ?_ (fun h => hG (key.2 h))
    cases readOk <;> simp

/-- Closed witness for `C4_read_badslot_iff`: a one-entry log in which the
cursor has been clobbered to `-1`; the theorem yields `BADSLOT`. -/
theorem C4_read_badslot_iff_witness :
    (flashlog_read ⟨true, 2044, 2, 1, 1, 0, 0, -1⟩ true).1 = Err.BADSLOT := by
  have h := C4_read_badslot_iff ⟨true, 2044, 2, 1, 1, 0, 0, -1⟩
    ⟨some ⟨2044, 2⟩, fun i => if i = 0 then 1 else UNUSED⟩ true rfl (by decide)
  exact h.2 (by decide)

/-- **C8**: with the partition found, `flashlog_open` fails with
`FLASHLOG_ERR_BADSIZE` exactly when `datasize + 4` (payload plus slot
metadata) is not a power of two `≤ 4096`, and in that case it performs no
flash read, write, or erase. -/
theorem C8_badsize_iff (st0 : LogState) (fl : Flash) (capacity datasize : Nat)
    (readOk eraseOk writeOk mallocOk : Bool) :
    ((flashlog_open st0 fl capacity datasize true readOk eraseOk writeOk mallocOk).err
        = Err.BADSIZE ↔ ¬ ∃ k, k ≤ 12 ∧ datasize + 4 = 2 ^ k) ∧
    ((¬ ∃ k, k ≤ 12 ∧ datasize + 4 = 2 ^ k) →
      (flashlog_open st0 fl capacity datasize true readOk eraseOk writeOk mallocOk).trace
        = []) := by
  have hent : entrysize datasize = datasize + 4 := rfl
  by_cases hsb : sizeBad datasize = true
  · have hne : ¬ ∃ k, k ≤ 12 ∧ datasize + 4 = 2 ^ k := by
      intro hex
      have : sizeBad datasize = false := by
        rw [sizeBad_false_iff, hent]
        exact hex
      simp [this] at hsb
    refine ⟨iff_of_true ?_ hne, fun _ => ?_⟩ <;> simp [flashlog_open, hsb]
  · have hsb' : sizeBad datasize = false := by
      cases hv : sizeBad datasize
      · rfl
      · exact absurd hv hsb
    have hex : ∃ k, k ≤ 12 ∧ datasize + 4 = 2 ^ k := by
      rw [← hent]
      exact (sizeBad_false_iff datasize).1 hsb'
    have key : (flashlog_open st0 fl capacity datasize true readOk eraseOk
        writeOk mallocOk).err ≠ Err.BADSIZE := by
      cases hh : fl.hdr with
      | none =>
        cases readOk <;> cases eraseOk <;> cases writeOk <;> cases mallocOk <;>
          simp [flashlog_open, hsb', hh]
      | some h =>
        by_cases hd : h.datasize = datasize <;>
          cases readOk <;> cases eraseOk <;> cases writeOk <;> cases mallocOk <;>
            simp [flashlog_open, hsb', hh, hd]
    exact ⟨iff_of_false key (by simpa using hex), fun hc => absurd hex hc⟩

/-- Closed witness for `C8_badsize_iff` at `datasize = 13`
(`13 + 4 = 17` is not a power of two): `BADSIZE` and an empty trace. -/
theorem C8_badsize_iff_witness :
    (flashlog_open ⟨false, 0, 0, 0, 0, 0, 0, 0⟩ ⟨none, fun _ => UNUSED⟩ 8192 13
        true true true true true).err = Err.BADSIZE ∧
    (flashlog_open ⟨false, 0, 0, 0, 0, 0, 0, 0⟩ ⟨none, fun _ => UNUSED⟩ 8192 13
        true true true true true).trace = [] := by
  have h := C8_badsize_iff ⟨false, 0, 0, 0, 0, 0, 0, 0⟩ ⟨none, fun _ => UNUSED⟩
    8192 13 true true true true
  exact ⟨h.1.2 (by decide), h.2 (by decide)⟩

/-- **C7**: opening a fresh (uninitialized) region of capacity `C` with an
accepted payload size `S` succeeds, writes a header whose
`slotCount = ⌊(C - 4096) / (S + 4)⌋`, and initializes the cursor state to
empty (`inUseCount = 0`, `highestSequenceSeen = 0`). -/
theorem C7_fresh_open (st0 : LogState) (fl : Flash) (capacity datasize : Nat)
    (hhdr : fl.hdr = none) (hsz : sizeBad datasize = false)
    (hcap : 4096 ≤ capacity) (hcap2 : capacity < U32MOD) :
    (flashlog_open st0 fl capacity datasize true true true true true).err = Err.OK ∧
    (flashlog_open st0 fl capacity datasize true true true true true).st.numslots
      = (((capacity - 4096) / (datasize + 4) : Nat) : Int) ∧
    (flashlog_open st0 fl capacity datasize true true true true true).fl.hdr
      = some ⟨datasize, (((capacity - 4096) / (datasize + 4) : Nat) : Int)⟩ ∧
    (flashlog_open st0 fl capacity datasize true true true true true).st.numinuse = 0 ∧
    (flashlog_open st0 fl capacity datasize true true true true true).st.highest_seqno = 0 ∧
    (flashlog_open st0 fl capacity datasize true true true true true).st.opened = true := by
  have hcap2n : capacity < 4294967296 := hcap2
  have hmod : (capacity + U32MOD - 4096) % U32MOD = capacity - 4096 := by
    simp only [U32MOD]
    omega
  have hnum : ((capacity + U32MOD - 4096) % U32MOD) / entrysize datasize
      = (capacity - 4096) / (datasize + 4) := by
    rw [hmod]
    rfl
  refine ⟨?_, ?_, ?_, ?_, ?_, ?_⟩ <;>
    simp [flashlog_open, hsz, hhdr, hnum]

/-- Closed witness for `C7_fresh_open`: capacity 8192, payload 12 gives
`slotCount = (8192-4096)/16 = 256`. -/
theorem C7_fresh_open_witness :
    (flashlog_open ⟨false, 0, 0, 0, 0, 0, 0, 0⟩ ⟨none, fun _ => UNUSED⟩ 8192 12
        true true true true true).st.numslots = 256 := by
  have h := C7_fresh_open ⟨false, 0, 0, 0, 0, 0, 0, 0⟩ ⟨none, fun _ => UNUSED⟩
    8192 12 rfl (by decide) (by decide) (by decide)
  rw [h.2.1]
  decide

/-- **C9**: opening an initialized region whose stored header records a
different payload size erases the entire region (destroying every prior
entry), writes a fresh header with the new payload size, and yields an
empty log with the newly computed slot count. -/
theorem C9_reinit_on_size_mismatch (st0 : LogState) (fl : Flash)
    (capacity datasize : Nat) (h : FlashHdr)
    (hhdr : fl.hdr = some h) (hne : h.datasize ≠ datasize)
    (hsz : sizeBad datasize = false)
    (hcap : 4096 ≤ capacity) (hcap2 : capacity < U32MOD) :
    (flashlog_open st0 fl capacity datasize true true true true true).err = Err.OK ∧
    (flashlog_open st0 fl capacity datasize true true true true true).trace
      = [IOOp.readBytes 0 16, IOOp.eraseRange 0 (capacity : Int),
         IOOp.writeBytes 0 16] ∧
    (∀ i : Nat,
      (flashlog_open st0 fl capacity datasize true true true true true).fl.slots i
        = UNUSED) ∧
    (flashlog_open st0 fl capacity datasize true true true true true).fl.hdr
      = some ⟨datasize, (((capacity - 4096) / (datasize + 4) : Nat) : Int)⟩ ∧
    (flashlog_open st0 fl capacity datasize true true true true true).st.numinuse = 0 ∧
    (flashlog_open st0 fl capacity datasize true true true true true).st.numslots
      = (((capacity - 4096) / (datasize + 4) : Nat) : Int) ∧
    (flashlog_open st0 fl capacity datasize true true true true true).st.datasize
      = datasize := by
  have hcap2n : capacity < 4294967296 := hcap2
  have hmod : (capacity + U32MOD - 4096) % U32MOD = capacity - 4096 := by
    simp only [U32MOD]
    omega
  have hnum : ((capacity + U32MOD - 4096) % U32MOD) / entrysize datasize
      = (capacity - 4096) / (datasize + 4) := by
    rw [hmod]
    rfl
  refine ⟨?_, ?_, ?_, ?_, ?_, ?_, ?_⟩ <;>
    simp [flashlog_open, hsz, hhdr, hne, hnum]

/-- Closed witness for `C9_reinit_on_size_mismatch`: a region initialized
for payload size 2044 with one entry, reopened with payload size 12. -/
theorem C9_reinit_on_size_mismatch_witness :
    (flashlog_open ⟨false, 0, 0, 0, 0, 0, 0, 0⟩
        ⟨some ⟨2044, 2⟩, fun i => if i = 0 then 1 else UNUSED⟩ 8192 12
        true true true true true).st.numinuse = 0 ∧
    (flashlog_open ⟨false, 0, 0, 0, 0, 0, 0, 0⟩
        ⟨some ⟨2044, 2⟩, fun i => if i = 0 then 1 else UNUSED⟩ 8192 12
        true true true true true).fl.slots 0 = UNUSED := by
  have h := C9_reinit_on_size_mismatch ⟨false, 0, 0, 0, 0, 0, 0, 0⟩
    ⟨some ⟨2044, 2⟩, fun i => if i = 0 then 1 else UNUSED⟩ 8192 12 ⟨2044, 2⟩
    rfl (by decide) (by decide) (by decide) (by decide)
  exact ⟨h.2.2.2.2.1, h.2.2.1 0⟩

/-- **C3** (code bug): recovery is *not* idempotent.  `flashlog_open`'s
recovery branch resets `highest_seqno`, `newest` and `oldest` before the
scan (lines 74-75) but never resets `state->numinuse`, and then counts via
`++state->numinuse` (line 82), so the stale value left in the caller's
struct by the previous session is added to the true count.  Failing input
evaluated here: a fresh region (capacity 8192, payload size 2044, hence 2
slots), one successful append (`numinuse = 1`), `flashlog_close`, then
`flashlog_open` again with the same payload size and the same struct: the
recovered `numinuse` is `2`, not `1`, although `oldest`, `newest` and
`highest_seqno` are recovered correctly. -/
theorem C3_reopen_miscounts_inuse :
    ((flashlog_add (flashlog_open ⟨false, 0, 0, 0, 0, 0, 0, 0⟩
        ⟨none, fun _ => UNUSED⟩ 8192 2044 true true true true true).st
      (flashlog_open ⟨false, 0, 0, 0, 0, 0, 0, 0⟩
        ⟨none, fun _ => UNUSED⟩ 8192 2044 true true true true true).fl
      true true).st.numinuse = 1) ∧
    ((flashlog_open
        (flashlog_close (flashlog_add (flashlog_open ⟨false, 0, 0, 0, 0, 0, 0, 0⟩
            ⟨none, fun _ => UNUSED⟩ 8192 2044 true true true true true).st
          (flashlog_open ⟨false, 0, 0, 0, 0, 0, 0, 0⟩
            ⟨none, fun _ => UNUSED⟩ 8192 2044 true true true true true).fl
          true true).st).2
        (flashlog_add (flashlog_open ⟨false, 0, 0, 0, 0, 0, 0, 0⟩
            ⟨none, fun _ => UNUSED⟩ 8192 2044 true true true true true).st
          (flashlog_open ⟨false, 0, 0, 0, 0, 0, 0, 0⟩
            ⟨none, fun _ => UNUSED⟩ 8192 2044 true true true true true).fl
          true true).fl
        8192 2044 true true true true true).st.numinuse = 2) ∧
    ((flashlog_open
        (flashlog_close (flashlog_add (flashlog_open ⟨false, 0, 0, 0, 0, 0, 0, 0⟩
            ⟨none, fun _ => UNUSED⟩ 8192 2044 true true true true true).st
          (flashlog_open ⟨false, 0, 0, 0, 0, 0, 0, 0⟩
            ⟨none, fun _ => UNUSED⟩ 8192 2044 true true true true true).fl
          true true).st).2
        (flashlog_add (flashlog_open ⟨false, 0, 0, 0, 0, 0, 0, 0⟩
            ⟨none, fun _ => UNUSED⟩ 8192 2044 true true true true true).st
          (flashlog_open ⟨false, 0, 0, 0, 0, 0, 0, 0⟩
            ⟨none, fun _ => UNUSED⟩ 8192 2044 true true true true true).fl
          true true).fl
        8192 2044 true true true true true).st.highest_seqno = 1) := by
  refine ⟨?_, ?_, ?_⟩ <;> decide

/-- **C2** (counterexample): `flashlog_add` updates the in-memory state
before the slot write, so a write failure can leave invariant I1 violated.
Concrete input: an open, empty two-slot log (capacity 8192, payload 2044)
satisfying I1; a `flashlog_add` whose flash write fails returns `WRITEERR`
and leaves `numinuse = 1` while no slot holds a valid sequence number. -/
theorem C2_counterexample :
    InvariantI1 ⟨true, 2044, 2, 0, 0, 0, 0, 0⟩ ⟨some ⟨2044, 2⟩, fun _ => UNUSED⟩ ∧
    (flashlog_add ⟨true, 2044, 2, 0, 0, 0, 0, 0⟩ ⟨some ⟨2044, 2⟩, fun _ => UNUSED⟩
      true false).err = Err.WRITEERR ∧
    ¬ InvariantI1
        (flashlog_add ⟨true, 2044, 2, 0, 0, 0, 0, 0⟩ ⟨some ⟨2044, 2⟩, fun _ => UNUSED⟩
          true false).st
        (flashlog_add ⟨true, 2044, 2, 0, 0, 0, 0, 0⟩ ⟨some ⟨2044, 2⟩, fun _ => UNUSED⟩
          true false).fl := by
  refine ⟨by decide, by decide, by decide⟩

/-- **C2** (amended): when `flashlog_add` fails, the flash is unchanged by
the failed primitive but the in-memory cursor state has already been
updated optimistically, and invariant I1 may be violated.  Precisely: on an
erase failure (which can only happen on a full ring) `newest` has already
advanced one step (mod `numslots`, if non-empty) and everything else is
unchanged; on a write failure every in-memory bookkeeping update —
`newest` advance, the eviction adjustments of `oldest`/`numinuse` on a full
ring, the sequence-number increment, and the `numinuse` increment — has
been committed, and on a full ring the evicted erase unit has been
erased. -/
theorem C2_amended_add_failure_optimistic (st : LogState) (fl : Flash)
    (hop : st.opened = true) (eraseOk writeOk : Bool) :
    (st.numinuse = st.numslots ∧ eraseOk = false →
      flashlog_add st fl eraseOk writeOk =
        ⟨Err.ERASEERR, advNewest st, fl,
         [IOOp.eraseRange (slotOffset st.datasize (advNewest st).newest)
            4096]⟩) ∧
    (st.numinuse ≠ st.numslots ∧ writeOk = false →
      flashlog_add st fl eraseOk writeOk =
        ⟨Err.WRITEERR,
         { advNewest st with
           highest_seqno := (st.highest_seqno + 1) % U32MOD,
           numinuse := st.numinuse + 1 },
         fl,
         [IOOp.writeBytes (slotOffset st.datasize (advNewest st).newest)
            (entrysize st.datasize : Int)]⟩) ∧
    (st.numinuse = st.numslots ∧ eraseOk = true ∧ writeOk = false →
      (flashlog_add st fl eraseOk writeOk).err = Err.WRITEERR ∧
      (flashlog_add st fl eraseOk writeOk).fl.slots =
        eraseSlots st.datasize fl.slots
          (slotOffset st.datasize (advNewest st).newest) ∧
      (flashlog_add st fl eraseOk writeOk).st.numinuse
        = st.numinuse - 4096 / (entrysize st.datasize : Int) + 1 ∧
      (flashlog_add st fl eraseOk writeOk).st.highest_seqno
        = (st.highest_seqno + 1) % U32MOD) := by
  refine ⟨?_, ?_, ?_⟩
  · rintro ⟨hfull, he⟩
    subst he
    simp only [flashlog_add, hop, Bool.not_true, Bool.false_eq_true, if_false,
      Bool.not_false, if_true, advNewest_numinuse, advNewest_numslots,
      advNewest_datasize]
    rw [if_pos hfull]
  · rintro ⟨hnf, hw⟩
    subst hw
    simp only [flashlog_add, hop, Bool.not_true, Bool.false_eq_true, if_false,
      Bool.not_false, if_true, advNewest_numinuse, advNewest_numslots,
      advNewest_datasize, advNewest_highest, advNewest_oldest]
    rw [if_neg hnf]
  · rintro ⟨hfull, he, hw⟩
    subst he hw
    simp only [flashlog_add, hop, Bool.not_true, Bool.false_eq_true, if_false,
      Bool.not_false, if_true, advNewest_numinuse, advNewest_numslots,
      advNewest_datasize, advNewest_highest, advNewest_oldest]
    rw [if_pos hfull]
    refine ⟨rfl, rfl, rfl, rfl⟩

/-- Closed witness for `C2_amended_add_failure_optimistic`: write failure
on an empty two-slot log commits `numinuse = 1` with the flash unchanged. -/
theorem C2_amended_add_failure_optimistic_witness :
    (flashlog_add ⟨true, 2044, 2, 0, 0, 0, 0, 0⟩ ⟨some ⟨2044, 2⟩, fun _ => UNUSED⟩
      true false).st.numinuse = 1 := by
  have h := C2_amended_add_failure_optimistic ⟨true, 2044, 2, 0, 0, 0, 0, 0⟩
    ⟨some ⟨2044, 2⟩, fun _ => UNUSED⟩ rfl true false
  rw [h.2.1 ⟨by decide, rfl⟩]
  decide

/-- Closed witness for `C10_navigation_ignores_open` at a concrete closed
state with stale cursor fields. -/
theorem C10_navigation_ignores_open_witness :
    (flashlog_goto_oldest ⟨false, 2044, 2, 2, 2, 1, 0, 0⟩).1 = Err.OK ∧
    (flashlog_add ⟨false, 2044, 2, 2, 2, 1, 0, 0⟩ ⟨none, fun _ => UNUSED⟩
      true true).err = Err.NOINIT := by
  have h := C10_navigation_ignores_open ⟨false, 2044, 2, 2, 2, 1, 0, 0⟩
    ⟨none, fun _ => UNUSED⟩ rfl true true true
  refine ⟨?_, h.2.2.2.2.2.2.2.2.1⟩
  rcases h.1 with h1 | h1
  · exact h1
  · exact absurd h1 (by decide)

end Flashlog
